import Mathlib

/-!
# Verification of the cpp-mcts Monte Carlo Tree Search core

Shallow embedding of the MCTS engine of this repository
(`include/mcts/mcts.hpp`, with the legacy variant `src/mcts.h` modelled
where its behaviour differs).  States `S` and actions `Act` are opaque
type parameters; the embedder-supplied hooks (the `Strategy`,
`Backpropagation`, `TerminationCheck` and `Scoring` subclasses) are
collected in a `Game` structure.  C++ `float` scores are modelled as
exact rationals; the transcendental functions `sqrt`/`log` used only
inside the UCT formula are modelled as abstract functions carried by
`Game` (`sqrtQ`, `logQ`), and the float sentinel
`-std::numeric_limits<float>::max()` by the exact rational `-floatMaxQ`.
The `std::mt19937` member generator is modelled as a stream
`rand : ℕ → ℕ` together with a position; a uniform draw over `n`
children reads the stream at the current position modulo `n`.  The
wall clock read at each loop-condition check is modelled as a stream
`clock : ℕ → ℕ` of elapsed milliseconds, and the `while` loop carries
explicit fuel (the clock of a real run eventually exceeds any budget,
which makes the loop finite; claims about runs with time budget 0 are
independent of the clock).

The `shared_ptr` tree is modelled as an arena: a list of nodes where
`parent` and `children` are indices into the list; the root sits at
index 0 and nodes are appended in creation order, so every parent index
is strictly below its children's indices in every reachable tree.
-/

namespace MctsSpec

/-- `FLT_MAX` (the C++ `std::numeric_limits<float>::max()`) as an exact
rational: `(2 - 2⁻²³)·2¹²⁷`. -/
def floatMaxQ : ℚ := 2 ^ 128 - 2 ^ 104

/-- The embedder-supplied hooks of the engine: `Action::execute`
(`exec`), the `ExpansionStrategy` (the finite lazy action sequence an
expansion cursor constructed from a state will produce, `expand`), the
`PlayoutStrategy` (`playout`, one random action generated from a
state), `TerminationCheck::isTerminal`, `Scoring::score`,
`Backpropagation::updateScore` (`adjust`), plus the default-constructed
action `dflt` (used for the root's incoming action).  `sqrtQ` and
`logQ` model the float `sqrt` and `log` of the UCT formula, and
`horizon` bounds the length of a random playout (a playout that does
not terminate within `horizon` steps diverges in the C++ code). -/
structure Game (S Act : Type) where
  exec : Act → S → S
  expand : S → List Act
  playout : S → Act
  isTerminal : S → Bool
  score : S → ℚ
  adjust : S → ℚ → ℚ
  dflt : Act
  sqrtQ : ℚ → ℚ
  logQ : ℕ → ℚ
  horizon : ℕ

/-- One vertex of the search tree (class `Node`): its id, owned state
(`data`), parent and children as arena indices, incoming action
(`action`), the remaining actions of its expansion cursor (`pending`,
initialised to the full enumeration at node birth), and the visit and
score aggregates. -/
structure NodeData (S Act : Type) where
  id : ℕ
  data : S
  parent : Option ℕ
  childrenIdx : List ℕ
  action : Act
  pending : List Act
  numVisits : ℕ
  scoreSum : ℚ

variable {S Act : Type}

instance [Inhabited S] [Inhabited Act] : Inhabited (NodeData S Act) :=
  ⟨{ id := 0, data := default, parent := none, childrenIdx := [],
     action := default, pending := [], numVisits := 0, scoreSum := 0 }⟩

/-- A search tree: the arena of nodes, root at index 0. -/
abbrev Tree (S Act : Type) := List (NodeData S Act)

/-- Node lookup in the arena.  Out-of-range indices (which never occur
in reachable trees) return an arbitrary inhabitant. -/
def getN [Inhabited S] [Inhabited Act] (t : Tree S Act) (i : ℕ) : NodeData S Act :=
  t.getD i default

/-- `Node::Node`: a freshly created node; its expansion cursor is
constructed from its state. -/
def mkNode (g : Game S Act) (id : ℕ) (data : S) (parent : Option ℕ) (action : Act) :
    NodeData S Act :=
  { id := id, data := data, parent := parent, childrenIdx := [],
    action := action, pending := g.expand data, numVisits := 0, scoreSum := 0 }

/-- `Node::update`: add the (already adjusted) score and count a visit. -/
def updateNode (sc : ℚ) (nd : NodeData S Act) : NodeData S Act :=
  { nd with scoreSum := nd.scoreSum + sc, numVisits := nd.numVisits + 1 }

/-- `Node::getAvgScore`: total score over number of visits (rational
division; `visits = 0` yields the junk value 0 where the float code
yields NaN — reachable trees never ask for the average of an
unvisited node). -/
def avgScore (nd : NodeData S Act) : ℚ := nd.scoreSum / nd.numVisits

/-- `Node::shouldExpand`: no children yet, or the cursor can still
generate. -/
def shouldExpand (nd : NodeData S Act) : Bool :=
  nd.childrenIdx.isEmpty || !nd.pending.isEmpty

/-- Fuel-based helper for `path` (the walk indices strictly decrease,
so fuel `i + 1` always suffices; structural recursion keeps the
definition kernel-reducible). -/
def pathAux [Inhabited S] [Inhabited Act] (t : Tree S Act) : ℕ → ℕ → List ℕ
  | 0, i => [i]
  | fuel + 1, i =>
    i :: (match (getN t i).parent with
          | none => []
          | some p => if p < i then pathAux t fuel p else [])

/-- The walk of `MCTS::backProp`: the updated node and its ancestor
chain.  The walk descends along parent indices; the guard `p < i`
holds in every reachable tree (parents are created before children). -/
def path [Inhabited S] [Inhabited Act] (t : Tree S Act) (i : ℕ) : List ℕ :=
  pathAux t i i

/-- Fuel-based helper for `backProp`. -/
def backPropAux [Inhabited S] [Inhabited Act] (g : Game S Act) (sc : ℚ) :
    ℕ → Tree S Act → ℕ → Tree S Act
  | 0, t, i => t.set i (updateNode (g.adjust (getN t i).data sc) (getN t i))
  | fuel + 1, t, i =>
    let t' := t.set i (updateNode (g.adjust (getN t i).data sc) (getN t i))
    match (getN t i).parent with
    | none => t'
    | some p => if p < i then backPropAux g sc fuel t' p else t'

/-- `MCTS::backProp` of `include/mcts/mcts.hpp`: starting at the
playout origin and walking up to and including the root, update every
node with `Backpropagation::updateScore` applied to that node's own
state and the terminal score. -/
def backProp [Inhabited S] [Inhabited Act] (g : Game S Act) (sc : ℚ) (t : Tree S Act)
    (i : ℕ) : Tree S Act :=
  backPropAux g sc i t i

/-- Fuel-based helper for `backPropLegacy`. -/
def backPropLegacyAux [Inhabited S] [Inhabited Act] (g : Game S Act) (sc : ℚ) :
    ℕ → Tree S Act → ℕ → Tree S Act
  | 0, t, i =>
    (match (getN t i).parent with
     | none => t.set i (updateNode sc (getN t i))
     | some _ => t.set i (updateNode (g.adjust (getN t i).data sc) (getN t i)))
  | fuel + 1, t, i =>
    match (getN t i).parent with
    | none => t.set i (updateNode sc (getN t i))
    | some p =>
      let t' := t.set i (updateNode (g.adjust (getN t i).data sc) (getN t i))
      if p < i then backPropLegacyAux g sc fuel t' p else t'

/-- `MCTS::backProp` of the legacy `src/mcts.h`: non-root nodes on the
walk receive the adjusted score, but the final (parentless) node — the
root — is updated with the raw terminal score. -/
def backPropLegacy [Inhabited S] [Inhabited Act] (g : Game S Act) (sc : ℚ) (t : Tree S Act)
    (i : ℕ) : Tree S Act :=
  backPropLegacyAux g sc i t i

/-- The mutable fields of class `MCTS` that the search reads or writes:
the tree (the `root` shared pointer becomes the arena with the root at
index 0), the configuration set through the setters, the node-id
allocator, the iteration counter and the position in the random
stream.  Defaults mirror `DEFAULT_TIME`, `DEFAULT_MIN_ITERATIONS`,
`DEFAULT_C`, `DEFAULT_MIN_T` and `DEFAULT_MIN_VISITS`. -/
structure Engine (S Act : Type) where
  tree : Tree S Act
  allowedTime : ℕ
  minIterations : ℕ
  uctC : ℚ
  minT : ℕ
  minVisits : ℕ
  currentNodeID : ℕ
  iterations : ℕ
  rngPos : ℕ

/-- The `MCTS` constructor: a fresh engine whose tree is a single root
node built from the caller's state with a default-constructed incoming
action, with all options at their defaults. -/
def mkEngine (g : Game S Act) (rootData : S) : Engine S Act :=
  { tree := [mkNode g 0 rootData none g.dflt],
    allowedTime := 500, minIterations := 0, uctC := 1 / 2,
    minT := 5, minVisits := 5, currentNodeID := 0, iterations := 0, rngPos := 0 }

/-- `MCTS::setTime`. -/
def setTime (time : ℕ) (e : Engine S Act) : Engine S Act := { e with allowedTime := time }

/-- `MCTS::setMinIterations`. -/
def setMinIterations (i : ℕ) (e : Engine S Act) : Engine S Act := { e with minIterations := i }

/-- `MCTS::setMinT`. -/
def setMinT (newMinT : ℕ) (e : Engine S Act) : Engine S Act := { e with minT := newMinT }

/-- `MCTS::setMinVisits`. -/
def setMinVisits (newMinVisits : ℕ) (e : Engine S Act) : Engine S Act :=
  { e with minVisits := newMinVisits }

/-- `MCTS::setC`. -/
def setC (newC : ℚ) (e : Engine S Act) : Engine S Act := { e with uctC := newC }

/-- The UCT value of a child `nd` of a parent with `parentVisits`
visits: `avg + C·sqrt(log(parentVisits) / visits)`. -/
def uctScore (g : Game S Act) (c : ℚ) (parentVisits : ℕ) (nd : NodeData S Act) : ℚ :=
  avgScore nd + c * g.sqrtQ (g.logQ parentVisits / nd.numVisits)

/-- The best-so-far loop shared by `MCTS::select` (UCT regime) and
`MCTS::calculateAction`: starting from `best = nullptr` and
`bestScore = -FLT_MAX`, replace the running best whenever a strictly
larger key is met. -/
def bestLoop (key : ℕ → ℚ) : List ℕ → Option ℕ → ℚ → Option ℕ
  | [], b, _ => b
  | j :: rest, b, m => if m < key j then bestLoop key rest (some j) (key j) else bestLoop key rest b m

/-- `MCTS::select`: if the node has fewer than `minVisits` visits,
draw a child uniformly at random (one read of the random stream,
index modulo the number of children); otherwise run the UCT
best-so-far loop over the children.  Returns the chosen child's index
(none models the C++ nullptr) and the advanced stream position. -/
def selectIdx [Inhabited S] [Inhabited Act] (g : Game S Act) (rand : ℕ → ℕ)
    (minVisits : ℕ) (c : ℚ) (t : Tree S Act) (i : ℕ) (r : ℕ) : Option ℕ × ℕ :=
  let nd := getN t i
  let children := nd.childrenIdx
  if nd.numVisits < minVisits then
    (children.get? (rand r % children.length), r + 1)
  else
    (bestLoop (fun j => uctScore g c nd.numVisits (getN t j)) children none (-floatMaxQ), r)

/-- The selection descent of `MCTS::search`: starting at the root,
replace the current node by `select` of it while it should not be
expanded.  `fuel` bounds the descent (indices strictly increase along
any reachable descent, so `t.length` steps always suffice). -/
def descend [Inhabited S] [Inhabited Act] (g : Game S Act) (rand : ℕ → ℕ)
    (minVisits : ℕ) (c : ℚ) (t : Tree S Act) : ℕ → ℕ → ℕ → ℕ × ℕ
  | 0, i, r => (i, r)
  | fuel + 1, i, r =>
    if shouldExpand (getN t i) then (i, r)
    else
      match selectIdx g rand minVisits c t i r with
      | (some j, r') => descend g rand minVisits c t fuel j r'
      | (none, r') => (i, r')

/-- `MCTS::expandNext`: clone the node's state, draw the next action
from its expansion cursor, execute it on the clone, create a child
node with the next fresh id and link it.  Returns the new arena, the
new child's index and the advanced id allocator. -/
def expandNext [Inhabited S] [Inhabited Act] (g : Game S Act) (t : Tree S Act)
    (i : ℕ) (nid : ℕ) : Tree S Act × ℕ × ℕ :=
  let nd := getN t i
  let a := nd.pending.headD g.dflt
  let newData := g.exec a nd.data
  let newIdx := List.length t
  let t1 := t.set i { nd with pending := nd.pending.tail,
                              childrenIdx := nd.childrenIdx ++ [newIdx] }
  (t1 ++ [mkNode g (nid + 1) newData (some i) a], newIdx, nid + 1)

/-- The playout loop of `MCTS::simulate`: from a clone of the origin's
state, generate and execute random actions until the state is
terminal (`fuel` is `Game.horizon`; exhausting it models a diverging
playout). -/
def rollout (g : Game S Act) : ℕ → S → S
  | 0, s => s
  | fuel + 1, s => if g.isTerminal s then s else rollout g fuel (g.exec (g.playout s) s)

/-- The terminal score at the end of a random playout from `s`
(`Scoring::score` of the final state of `MCTS::simulate`). -/
def simScore (g : Game S Act) (s : S) : ℚ := g.score (rollout g g.horizon s)

/-- The body of the search loop of `MCTS::search` (one iteration):
increment the iteration counter, descend by selection, then either
short-circuit on a terminal node (backpropagate its own score),
expand and simulate from the new child (when the visit gate
`numVisits ≥ minT` is open), or simulate from the descended-to node
itself. -/
def iterate [Inhabited S] [Inhabited Act] (g : Game S Act) (rand : ℕ → ℕ)
    (e : Engine S Act) : Engine S Act :=
  let e1 := { e with iterations := e.iterations + 1 }
  let sel := descend g rand e.minVisits e.uctC e.tree e.tree.length 0 e.rngPos
  let i := sel.1
  let nd := getN e.tree i
  if g.isTerminal nd.data then
    { e1 with tree := backProp g (g.score nd.data) e.tree i, rngPos := sel.2 }
  else if e.minT ≤ nd.numVisits then
    let ex := expandNext g e.tree i e.currentNodeID
    let originData := (getN ex.1 ex.2.1).data
    { e1 with tree := backProp g (simScore g originData) ex.1 ex.2.1,
              currentNodeID := ex.2.2, rngPos := sel.2 }
  else
    { e1 with tree := backProp g (simScore g nd.data) e.tree i, rngPos := sel.2 }

/-- The `while` loop of `MCTS::search`: run another iteration exactly
while the elapsed time read from the clock stream is below the
allowed computation time or fewer than `minIterations` iterations have
completed.  `k` counts the loop-condition checks (clock reads) and
`fuel` makes the loop finite. -/
def searchLoop [Inhabited S] [Inhabited Act] (g : Game S Act) (rand clock : ℕ → ℕ) :
    ℕ → ℕ → Engine S Act → Engine S Act
  | 0, _, e => e
  | fuel + 1, k, e =>
    if clock k < e.allowedTime ∨ e.iterations < e.minIterations then
      searchLoop g rand clock fuel (k + 1) (iterate g rand e)
    else e

/-- The result-selection loop of `MCTS::calculateAction`: the root
child with the best average score, best-so-far with strict
improvement. -/
def bestRootChild [Inhabited S] [Inhabited Act] (t : Tree S Act) : Option ℕ :=
  bestLoop (fun j => avgScore (getN t j)) (getN t 0).childrenIdx none (-floatMaxQ)

/-- `MCTS::calculateAction` of `include/mcts/mcts.hpp`: run the
search, then return the incoming action of the best root child, or —
if no expansion took place — a random action generated by a one-shot
playout policy over a clone of the root's state.  The engine after the
call is returned alongside (the C++ method mutates the `MCTS`
object). -/
def calculateAction [Inhabited S] [Inhabited Act] (g : Game S Act) (rand clock : ℕ → ℕ)
    (fuel : ℕ) (e : Engine S Act) : Act × Engine S Act :=
  let e' := searchLoop g rand clock fuel 0 e
  match bestRootChild e'.tree with
  | some j => ((getN e'.tree j).action, e')
  | none => (g.playout (getN e'.tree 0).data, e')

/-- `MCTS::calculateAction` of the legacy `src/mcts.h`: identical
result selection but no fallback — when the root has no children the
method dereferences a null pointer, modelled by `none`. -/
def calculateActionLegacy [Inhabited S] [Inhabited Act] (g : Game S Act) (rand clock : ℕ → ℕ)
    (fuel : ℕ) (e : Engine S Act) : Option Act × Engine S Act :=
  let e' := searchLoop g rand clock fuel 0 e
  match bestRootChild e'.tree with
  | some j => (some (getN e'.tree j).action, e')
  | none => (none, e')

/-- The result-selection rule as the spec words it: the first child in
insertion order whose key is greatest. -/
def firstMaxBy (key : ℕ → ℚ) (l : List ℕ) : Option ℕ :=
  l.find? (fun j => l.all (fun k => key k ≤ key j))

/-- Structural wellformedness of a reachable arena: the root exists,
parents were created before their children, child indices are in
range, above their parent and duplicate-free, and each recorded child
points back to its parent. -/
structure ST [Inhabited S] [Inhabited Act] (t : Tree S Act) : Prop where
  nonempty : 0 < List.length t
  parent_lt : ∀ j, j < List.length t → ∀ p, (getN t j).parent = some p → p < j
  children_lt : ∀ j, j < List.length t → ∀ c ∈ (getN t j).childrenIdx,
    c < List.length t ∧ j < c
  children_nodup : ∀ j, j < List.length t → ((getN t j).childrenIdx).Nodup
  children_parent : ∀ j, j < List.length t → ∀ c ∈ (getN t j).childrenIdx,
    (getN t c).parent = some j

/-- Every non-root node has been visited at least once. -/
def VisitedInv [Inhabited S] [Inhabited Act] (t : Tree S Act) : Prop :=
  ∀ j, j < List.length t → (getN t j).parent ≠ none → 1 ≤ (getN t j).numVisits

/-- The total visits of a node's children. -/
def sumChildVisits [Inhabited S] [Inhabited Act] (t : Tree S Act) (j : ℕ) : ℕ :=
  (((getN t j).childrenIdx).map (fun c => (getN t c).numVisits)).sum

/-- Every node has at least as many visits as its children combined. -/
def SumInv [Inhabited S] [Inhabited Act] (t : Tree S Act) : Prop :=
  ∀ j, j < List.length t → sumChildVisits t j ≤ (getN t j).numVisits

/-- A small concrete domain used to evaluate the engine on closed
inputs: states are counters, actions add to the counter, states of
value at least 3 are terminal with their value as score, and the
adjust hook adds 1 (so adjusted and raw scores are distinguishable). -/
def demoGame : Game ℕ ℕ :=
  { exec := fun a s => s + a
    expand := fun _ => [1, 2]
    playout := fun _ => 1
    isTerminal := fun s => decide (3 ≤ s)
    score := fun s => (s : ℚ)
    adjust := fun _ x => x + 1
    dflt := 0
    sqrtQ := id
    logQ := fun n => (n : ℚ)
    horizon := 5 }

/-- A fixed stream for the selection RNG. -/
def demoRand : ℕ → ℕ := fun _ => 0

/-- A clock whose elapsed time grows by one millisecond per check. -/
def demoClock : ℕ → ℕ := fun k => k

/-- Demo engine: time budget 0, three forced iterations, expansion
threshold 0 so the tree grows. -/
def demoEngine3 : Engine ℕ ℕ := setMinT 0 (setMinIterations 3 (setTime 0 (mkEngine demoGame 0)))

/-- The demo tree after the three-iteration search: root 0 with
children 1 and 2, node 1 with child 3. -/
def demoTree3 : Tree ℕ ℕ := (searchLoop demoGame demoRand demoClock 9 0 demoEngine3).tree

section ArenaLemmas

variable [Inhabited S] [Inhabited Act]

theorem getN_set_self {t : Tree S Act} {i : ℕ} (x : NodeData S Act) (h : i < List.length t) :
    getN (t.set i x) i = x := by
  simp [getN, List.getD_eq_getElem?_getD, List.getElem?_set_eq_of_lt _ h]

theorem getN_set_ne {t : Tree S Act} {i j : ℕ} (x : NodeData S Act) (h : j ≠ i) :
    getN (t.set i x) j = getN t j := by
  simp [getN, List.getD_eq_getElem?_getD, List.getElem?_set_ne (Ne.symm h)]

theorem getN_concat_self (l : Tree S Act) (x : NodeData S Act) :
    getN (l ++ [x]) (List.length l) = x := by
  simp [getN, List.getD_eq_getElem?_getD, List.getElem?_concat_length]

theorem getN_append_left {l : Tree S Act} (x : NodeData S Act) {j : ℕ}
    (hj : j < List.length l) : getN (l ++ [x]) j = getN l j := by
  simp [getN, List.getD_eq_getElem?_getD, List.getElem?_append_left hj]

theorem pathAux_congr (t : Tree S Act) :
    ∀ fuel fuel' i, i ≤ fuel → i ≤ fuel' → pathAux t fuel i = pathAux t fuel' i := by
  intro fuel
  induction fuel with
  | zero =>
    intro fuel' i hf hf'
    interval_cases i
    cases fuel' with
    | zero => rfl
    | succ n =>
      rw [pathAux, pathAux]
      cases hpar : (getN t 0).parent with
      | none => rfl
      | some p => simp
  | succ n ih =>
    intro fuel' i hf hf'
    cases fuel' with
    | zero =>
      interval_cases i
      rw [pathAux, pathAux]
      cases hpar : (getN t 0).parent with
      | none => rfl
      | some p => simp
    | succ n' =>
      rw [pathAux, pathAux]
      cases hpar : (getN t i).parent with
      | none => rfl
      | some p =>
        dsimp only
        by_cases hp : p < i
        · rw [if_pos hp, if_pos hp, ih n' p (by omega) (by omega)]
        · rw [if_neg hp, if_neg hp]

theorem path_eq (t : Tree S Act) (i : ℕ) :
    path t i = i :: (match (getN t i).parent with
      | none => []
      | some p => if p < i then path t p else []) := by
  unfold path
  cases i with
  | zero =>
    rw [pathAux]
    cases hpar : (getN t 0).parent with
    | none => rfl
    | some p => simp
  | succ n =>
    rw [pathAux]
    cases hpar : (getN t (n + 1)).parent with
    | none => rfl
    | some p =>
      dsimp only
      by_cases hp : p < n + 1
      · rw [if_pos hp, if_pos hp, pathAux_congr t n p p (by omega) (by omega)]
      · rw [if_neg hp, if_neg hp]

theorem self_mem_path (t : Tree S Act) (i : ℕ) : i ∈ path t i := by
  rw [path_eq]; exact List.mem_cons_self _ _

theorem path_cons_of_parent {t : Tree S Act} {i p : ℕ}
    (hpar : (getN t i).parent = some p) (hp : p < i) :
    path t i = i :: path t p := by
  rw [path_eq, hpar]; dsimp only; rw [if_pos hp]

theorem path_singleton_of_root {t : Tree S Act} {i : ℕ}
    (hpar : (getN t i).parent = none) : path t i = [i] := by
  rw [path_eq, hpar]

theorem path_singleton_of_stuck {t : Tree S Act} {i p : ℕ}
    (hpar : (getN t i).parent = some p) (hp : ¬p < i) : path t i = [i] := by
  rw [path_eq, hpar]; dsimp only; rw [if_neg hp]

theorem mem_path_le (t : Tree S Act) : ∀ i, ∀ j ∈ path t i, j ≤ i := by
  intro i
  induction i using Nat.strong_induction_on with
  | _ i ih =>
    intro j hj
    cases hpar : (getN t i).parent with
    | none =>
      rw [path_singleton_of_root hpar] at hj
      simp at hj; omega
    | some p =>
      by_cases hp : p < i
      · rw [path_cons_of_parent hpar hp] at hj
        rcases List.mem_cons.1 hj with h | h
        · omega
        · exact le_trans (ih p hp j h) (le_of_lt hp)
      · rw [path_singleton_of_stuck hpar hp] at hj
        simp at hj; omega

theorem path_set_of_lt (t : Tree S Act) (x : NodeData S Act) (i : ℕ) :
    ∀ p, p < i → path (t.set i x) p = path t p := by
  intro p
  induction p using Nat.strong_induction_on with
  | _ p ih =>
    intro hpi
    cases hpar : (getN t p).parent with
    | none =>
      have hpar' : (getN (t.set i x) p).parent = none := by
        rw [getN_set_ne x (by omega)]; exact hpar
      rw [path_singleton_of_root hpar', path_singleton_of_root hpar]
    | some q =>
      have hpar' : (getN (t.set i x) p).parent = some q := by
        rw [getN_set_ne x (by omega)]; exact hpar
      by_cases hq : q < p
      · rw [path_cons_of_parent hpar' hq, path_cons_of_parent hpar hq, ih q hq (by omega)]
      · rw [path_singleton_of_stuck hpar' hq, path_singleton_of_stuck hpar hq]

theorem backPropAux_congr (g : Game S Act) (sc : ℚ) :
    ∀ fuel fuel' (t : Tree S Act) i, i ≤ fuel → i ≤ fuel' →
      backPropAux g sc fuel t i = backPropAux g sc fuel' t i := by
  intro fuel
  induction fuel with
  | zero =>
    intro fuel' t i hf hf'
    interval_cases i
    cases fuel' with
    | zero => rfl
    | succ n =>
      rw [backPropAux, backPropAux]
      cases hpar : (getN t 0).parent with
      | none => rfl
      | some p => simp
  | succ n ih =>
    intro fuel' t i hf hf'
    cases fuel' with
    | zero =>
      interval_cases i
      rw [backPropAux, backPropAux]
      cases hpar : (getN t 0).parent with
      | none => rfl
      | some p => simp
    | succ n' =>
      rw [backPropAux, backPropAux]
      cases hpar : (getN t i).parent with
      | none => rfl
      | some p =>
        dsimp only
        by_cases hp : p < i
        · rw [if_pos hp, if_pos hp, ih n' _ p (by omega) (by omega)]
        · rw [if_neg hp, if_neg hp]

theorem backProp_root {g : Game S Act} {sc : ℚ} {t : Tree S Act} {i : ℕ}
    (hpar : (getN t i).parent = none) :
    backProp g sc t i = t.set i (updateNode (g.adjust (getN t i).data sc) (getN t i)) := by
  unfold backProp
  cases i with
  | zero => rfl
  | succ n => rw [backPropAux, hpar]

theorem backProp_step {g : Game S Act} {sc : ℚ} {t : Tree S Act} {i p : ℕ}
    (hpar : (getN t i).parent = some p) (hp : p < i) :
    backProp g sc t i =
      backProp g sc (t.set i (updateNode (g.adjust (getN t i).data sc) (getN t i))) p := by
  unfold backProp
  cases i with
  | zero => omega
  | succ n =>
    rw [backPropAux, hpar]
    dsimp only
    rw [if_pos hp, backPropAux_congr g sc n p _ p (by omega) (by omega)]

theorem backProp_stuck {g : Game S Act} {sc : ℚ} {t : Tree S Act} {i p : ℕ}
    (hpar : (getN t i).parent = some p) (hp : ¬p < i) :
    backProp g sc t i = t.set i (updateNode (g.adjust (getN t i).data sc) (getN t i)) := by
  unfold backProp
  cases i with
  | zero => rfl
  | succ n =>
    rw [backPropAux, hpar]
    dsimp only
    rw [if_neg hp]

theorem backProp_length (g : Game S Act) (sc : ℚ) :
    ∀ i (t : Tree S Act), List.length (backProp g sc t i) = List.length t := by
  intro i
  induction i using Nat.strong_induction_on with
  | _ i ih =>
    intro t
    cases hpar : (getN t i).parent with
    | none => rw [backProp_root hpar]; simp
    | some p =>
      by_cases hp : p < i
      · rw [backProp_step hpar hp, ih p hp]; simp
      · rw [backProp_stuck hpar hp]; simp

/-- Pointwise effect of `MCTS::backProp` (`include/mcts/mcts.hpp`):
every node on the walk from the playout origin up the parent chain —
the root included — is updated with the score adjusted by
`Backpropagation::updateScore` at that node's own state; every other
node is untouched. -/
theorem backProp_getN (g : Game S Act) (sc : ℚ) :
    ∀ i (t : Tree S Act), i < List.length t → ∀ j,
      getN (backProp g sc t i) j =
        if j ∈ path t i then updateNode (g.adjust (getN t j).data sc) (getN t j)
        else getN t j := by
  intro i
  induction i using Nat.strong_induction_on with
  | _ i ih =>
    intro t hi j
    cases hpar : (getN t i).parent with
    | none =>
      rw [backProp_root hpar, path_singleton_of_root hpar]
      by_cases hj : j = i
      · subst hj
        rw [getN_set_self _ hi]
        simp
      · rw [getN_set_ne _ hj]
        simp [hj]
    | some p =>
      by_cases hp : p < i
      · rw [backProp_step hpar hp, path_cons_of_parent hpar hp]
        have hlen : p < List.length (t.set i (updateNode (g.adjust (getN t i).data sc) (getN t i))) := by
          simp; omega
        rw [ih p hp _ hlen j, path_set_of_lt t _ i p hp]
        by_cases hj : j = i
        · subst hj
          have hni : j ∉ path t p := fun h => absurd (mem_path_le t p j h) (by omega)
          rw [if_neg hni, getN_set_self _ hi]
          simp
        · rw [getN_set_ne _ hj]
          by_cases hmem : j ∈ path t p
          · simp [hmem, hj]
          · simp [hmem, hj]
      · rw [backProp_stuck hpar hp, path_singleton_of_stuck hpar hp]
        by_cases hj : j = i
        · subst hj
          rw [getN_set_self _ hi]
          simp
        · rw [getN_set_ne _ hj]
          simp [hj]

theorem backPropLegacyAux_congr (g : Game S Act) (sc : ℚ) :
    ∀ fuel fuel' (t : Tree S Act) i, i ≤ fuel → i ≤ fuel' →
      backPropLegacyAux g sc fuel t i = backPropLegacyAux g sc fuel' t i := by
  intro fuel
  induction fuel with
  | zero =>
    intro fuel' t i hf hf'
    interval_cases i
    cases fuel' with
    | zero => rfl
    | succ n =>
      rw [backPropLegacyAux, backPropLegacyAux]
      cases hpar : (getN t 0).parent with
      | none => rfl
      | some p => simp
  | succ n ih =>
    intro fuel' t i hf hf'
    cases fuel' with
    | zero =>
      interval_cases i
      rw [backPropLegacyAux, backPropLegacyAux]
      cases hpar : (getN t 0).parent with
      | none => rfl
      | some p => simp
    | succ n' =>
      rw [backPropLegacyAux, backPropLegacyAux]
      cases hpar : (getN t i).parent with
      | none => rfl
      | some p =>
        dsimp only
        by_cases hp : p < i
        · rw [if_pos hp, if_pos hp, ih n' _ p (by omega) (by omega)]
        · rw [if_neg hp, if_neg hp]

theorem backPropLegacy_root {g : Game S Act} {sc : ℚ} {t : Tree S Act} {i : ℕ}
    (hpar : (getN t i).parent = none) :
    backPropLegacy g sc t i = t.set i (updateNode sc (getN t i)) := by
  unfold backPropLegacy
  cases i with
  | zero => rw [backPropLegacyAux, hpar]
  | succ n => rw [backPropLegacyAux, hpar]

theorem backPropLegacy_step {g : Game S Act} {sc : ℚ} {t : Tree S Act} {i p : ℕ}
    (hpar : (getN t i).parent = some p) (hp : p < i) :
    backPropLegacy g sc t i =
      backPropLegacy g sc (t.set i (updateNode (g.adjust (getN t i).data sc) (getN t i))) p := by
  unfold backPropLegacy
  cases i with
  | zero => omega
  | succ n =>
    rw [backPropLegacyAux, hpar]
    dsimp only
    rw [if_pos hp, backPropLegacyAux_congr g sc n p _ p (by omega) (by omega)]

theorem backPropLegacy_stuck {g : Game S Act} {sc : ℚ} {t : Tree S Act} {i p : ℕ}
    (hpar : (getN t i).parent = some p) (hp : ¬p < i) :
    backPropLegacy g sc t i = t.set i (updateNode (g.adjust (getN t i).data sc) (getN t i)) := by
  unfold backPropLegacy
  cases i with
  | zero => rw [backPropLegacyAux, hpar]
  | succ n =>
    rw [backPropLegacyAux, hpar]
    dsimp only
    rw [if_neg hp]

/-- Pointwise effect of the legacy `MCTS::backProp` (`src/mcts.h`):
non-root nodes on the walk receive the adjusted score, but the root
(the parentless end of the walk) is updated with the raw terminal
score. -/
theorem backPropLegacy_getN (g : Game S Act) (sc : ℚ) :
    ∀ i (t : Tree S Act), i < List.length t → ∀ j,
      getN (backPropLegacy g sc t i) j =
        if j ∈ path t i then
          (if (getN t j).parent = none then updateNode sc (getN t j)
           else updateNode (g.adjust (getN t j).data sc) (getN t j))
        else getN t j := by
  intro i
  induction i using Nat.strong_induction_on with
  | _ i ih =>
    intro t hi j
    cases hpar : (getN t i).parent with
    | none =>
      rw [backPropLegacy_root hpar, path_singleton_of_root hpar]
      by_cases hj : j = i
      · subst hj
        rw [getN_set_self _ hi]
        simp [hpar]
      · rw [getN_set_ne _ hj]
        simp [hj]
    | some p =>
      by_cases hp : p < i
      · rw [backPropLegacy_step hpar hp, path_cons_of_parent hpar hp]
        have hlen : p < List.length (t.set i (updateNode (g.adjust (getN t i).data sc) (getN t i))) := by
          simp; omega
        rw [ih p hp _ hlen j, path_set_of_lt t _ i p hp]
        by_cases hj : j = i
        · subst hj
          have hni : j ∉ path t p := fun h => absurd (mem_path_le t p j h) (by omega)
          rw [if_neg hni, getN_set_self _ hi]
          simp [hpar]
        · rw [getN_set_ne _ hj]
          by_cases hmem : j ∈ path t p
          · simp [hmem, hj]
          · simp [hmem, hj]
      · rw [backPropLegacy_stuck hpar hp, path_singleton_of_stuck hpar hp]
        by_cases hj : j = i
        · subst hj
          rw [getN_set_self _ hi]
          simp [hpar]
        · rw [getN_set_ne _ hj]
          simp [hj]

end ArenaLemmas

section BestLoopLemmas

theorem bestLoop_of_forall_le {key : ℕ → ℚ} :
    ∀ (l : List ℕ) (b : Option ℕ) (m : ℚ), (∀ j ∈ l, key j ≤ m) →
      bestLoop key l b m = b := by
  intro l
  induction l with
  | nil => intro b m _; rfl
  | cons a rest ih =>
    intro b m h
    have ha : ¬m < key a := not_lt.2 (h a (List.mem_cons_self _ _))
    rw [bestLoop, if_neg ha]
    exact ih b m (fun j hj => h j (List.mem_cons_of_mem _ hj))

theorem find?_congr_on {α : Type} {P Q : α → Bool} :
    ∀ (l : List α), (∀ x ∈ l, P x = Q x) → l.find? P = l.find? Q := by
  intro l
  induction l with
  | nil => intro _; rfl
  | cons a rest ih =>
    intro h
    rw [List.find?_cons, List.find?_cons, h a (List.mem_cons_self _ _)]
    cases Q a with
    | true => rfl
    | false => exact ih (fun x hx => h x (List.mem_cons_of_mem _ hx))

/-- The best-so-far loop with strict improvement computes the first
maximiser of the key, provided some key strictly exceeds the running
maximum. -/
theorem bestLoop_eq_firstMaxBy {key : ℕ → ℚ} :
    ∀ (l : List ℕ) (b : Option ℕ) (m : ℚ), (∃ j ∈ l, m < key j) →
      bestLoop key l b m = firstMaxBy key l := by
  intro l
  induction l with
  | nil => intro b m h; simp at h
  | cons a rest ih =>
    intro b m h
    by_cases hmax : ∀ k ∈ a :: rest, key k ≤ key a
    · have hm : m < key a := by
        obtain ⟨j, hj, hmj⟩ := h
        exact lt_of_lt_of_le hmj (hmax j hj)
      rw [bestLoop, if_pos hm,
          bestLoop_of_forall_le rest (some a) (key a)
            (fun j hj => hmax j (List.mem_cons_of_mem _ hj))]
      unfold firstMaxBy
      rw [List.find?_cons]
      have : (a :: rest).all (fun k => key k ≤ key a) = true := by
        rw [List.all_eq_true]; intro x hx; exact decide_eq_true (hmax x hx)
      rw [this]
    · push_neg at hmax
      obtain ⟨k, hk, hka⟩ := hmax
      have hkrest : k ∈ rest := by
        rcases List.mem_cons.1 hk with rfl | hk'
        · exact absurd hka (lt_irrefl _)
        · exact hk'
      have hfind : firstMaxBy key (a :: rest) = firstMaxBy key rest := by
        unfold firstMaxBy
        rw [List.find?_cons]
        have hfa : ((a :: rest).all (fun j => key j ≤ key a)) = false := by
          rw [List.all_eq_false]
          exact ⟨k, hk, by simp [not_le.2 hka]⟩
        rw [hfa]
        apply find?_congr_on
        intro x hx
        cases hall : rest.all (fun j => key j ≤ key x) with
        | true =>
          have hax : key a ≤ key x := by
            rw [List.all_eq_true] at hall
            exact le_trans (le_of_lt hka) (of_decide_eq_true (hall k hkrest))
          simp [List.all_cons, hall, hax]
        | false => simp [List.all_cons, hall]
      rw [hfind, bestLoop]
      by_cases hm : m < key a
      · rw [if_pos hm]
        exact ih (some a) (key a) ⟨k, hkrest, hka⟩
      · rw [if_neg hm]
        obtain ⟨j, hj, hmj⟩ := h
        have hjrest : j ∈ rest := by
          rcases List.mem_cons.1 hj with rfl | hj'
          · exact absurd hmj hm
          · exact hj'
        exact ih b m ⟨j, hjrest, hmj⟩

theorem bestLoop_some_isSome {key : ℕ → ℚ} :
    ∀ (l : List ℕ) (x : ℕ) (m : ℚ), (bestLoop key l (some x) m).isSome := by
  intro l
  induction l with
  | nil => intro x m; rfl
  | cons a rest ih =>
    intro x m
    rw [bestLoop]
    by_cases hm : m < key a
    · rw [if_pos hm]; exact ih a _
    · rw [if_neg hm]; exact ih x m

theorem bestLoop_isSome {key : ℕ → ℚ} :
    ∀ (l : List ℕ) (b : Option ℕ) (m : ℚ), (∃ j ∈ l, m < key j) →
      (bestLoop key l b m).isSome := by
  intro l
  induction l with
  | nil => intro b m h; simp at h
  | cons a rest ih =>
    intro b m h
    rw [bestLoop]
    by_cases hm : m < key a
    · rw [if_pos hm]; exact bestLoop_some_isSome rest a _
    · rw [if_neg hm]
      obtain ⟨j, hj, hmj⟩ := h
      have hjrest : j ∈ rest := by
        rcases List.mem_cons.1 hj with rfl | hj'
        · exact absurd hmj hm
        · exact hj'
      exact ih b m ⟨j, hjrest, hmj⟩

theorem bestLoop_mem {key : ℕ → ℚ} :
    ∀ (l : List ℕ) (b : Option ℕ) (m : ℚ) (j : ℕ),
      bestLoop key l b m = some j → j ∈ l ∨ b = some j := by
  intro l
  induction l with
  | nil => intro b m j h; exact Or.inr h
  | cons a rest ih =>
    intro b m j h
    rw [bestLoop] at h
    by_cases hm : m < key a
    · rw [if_pos hm] at h
      rcases ih (some a) (key a) j h with hmem | hb
      · exact Or.inl (List.mem_cons_of_mem _ hmem)
      · exact Or.inl (by rw [Option.some_inj.1 hb]; exact List.mem_cons_self _ _)
    · rw [if_neg hm] at h
      rcases ih b m j h with hmem | hb
      · exact Or.inl (List.mem_cons_of_mem _ hmem)
      · exact Or.inr hb

theorem firstMaxBy_mem {key : ℕ → ℚ} {l : List ℕ} {j : ℕ}
    (h : firstMaxBy key l = some j) : j ∈ l ∧ ∀ k ∈ l, key k ≤ key j := by
  have hmem := List.find?_some h
  refine ⟨List.mem_of_find?_eq_some h, ?_⟩
  intro k hk
  rw [List.all_eq_true] at hmem
  exact of_decide_eq_true (hmem k hk)

end BestLoopLemmas

attribute [local semireducible] Rat.add Rat.mul Rat.sub Rat.inv

set_option maxRecDepth 1000000

section LoopLemmas

variable [Inhabited S] [Inhabited Act]

theorem iterate_iterations (g : Game S Act) (rand : ℕ → ℕ) (e : Engine S Act) :
    (iterate g rand e).iterations = e.iterations + 1 := by
  unfold iterate
  dsimp only
  split
  · rfl
  · split <;> rfl

theorem iterate_allowedTime (g : Game S Act) (rand : ℕ → ℕ) (e : Engine S Act) :
    (iterate g rand e).allowedTime = e.allowedTime := by
  unfold iterate
  dsimp only
  split
  · rfl
  · split <;> rfl

theorem iterate_minIterations (g : Game S Act) (rand : ℕ → ℕ) (e : Engine S Act) :
    (iterate g rand e).minIterations = e.minIterations := by
  unfold iterate
  dsimp only
  split
  · rfl
  · split <;> rfl

theorem searchLoop_succ (g : Game S Act) (rand clock : ℕ → ℕ) (fuel k : ℕ) (e : Engine S Act) :
    searchLoop g rand clock (fuel + 1) k e =
      if clock k < e.allowedTime ∨ e.iterations < e.minIterations then
        searchLoop g rand clock fuel (k + 1) (iterate g rand e)
      else e := by
  rw [searchLoop]

theorem searchLoop_noop (g : Game S Act) (rand clock : ℕ → ℕ) (e : Engine S Act)
    (h0 : e.allowedTime = 0) (hit : e.minIterations ≤ e.iterations) :
    ∀ fuel k, searchLoop g rand clock fuel k e = e := by
  intro fuel k
  cases fuel with
  | zero => rfl
  | succ n => rw [searchLoop_succ, if_neg (by omega)]

theorem searchLoop_budget0_iterations (g : Game S Act) (rand clock : ℕ → ℕ) :
    ∀ fuel k (e : Engine S Act), e.allowedTime = 0 →
      e.minIterations ≤ e.iterations + fuel →
      (searchLoop g rand clock fuel k e).iterations = max e.iterations e.minIterations := by
  intro fuel
  induction fuel with
  | zero =>
    intro k e h0 hf
    have hrfl : searchLoop g rand clock 0 k e = e := rfl
    rw [hrfl]
    omega
  | succ n ih =>
    intro k e h0 hf
    rw [searchLoop_succ]
    by_cases hcond : clock k < e.allowedTime ∨ e.iterations < e.minIterations
    · rw [if_pos hcond]
      have h0' : (iterate g rand e).allowedTime = 0 := by rw [iterate_allowedTime]; exact h0
      have hf' : (iterate g rand e).minIterations ≤ (iterate g rand e).iterations + n := by
        rw [iterate_minIterations, iterate_iterations]; omega
      rw [ih (k + 1) _ h0' hf', iterate_iterations, iterate_minIterations]
      have hlt : e.iterations < e.minIterations := by
        rcases hcond with hc | hc
        · rw [h0] at hc; exact absurd hc (Nat.not_lt_zero _)
        · exact hc
      omega
    · rw [if_neg hcond]
      push_neg at hcond
      omega

theorem calculateAction_snd (g : Game S Act) (rand clock : ℕ → ℕ) (fuel : ℕ)
    (e : Engine S Act) :
    (calculateAction g rand clock fuel e).2 = searchLoop g rand clock fuel 0 e := by
  unfold calculateAction
  dsimp only
  split <;> rfl

end LoopLemmas

section ClaimC6

variable [Inhabited S] [Inhabited Act]

/-- C6: the search loop of `MCTS::search` runs another iteration
exactly while the elapsed wall-clock time since loop start is below
the configured time budget or fewer than `minIterations` iterations
have completed; in particular a fresh engine (iteration counter 0)
with time budget 0 and `minIterations = k` performs exactly `k`
iterations (hence at least `k`) before `calculateAction` returns. -/
theorem C6_loop_budget (g : Game S Act) (rand clock : ℕ → ℕ) :
    (∀ fuel k (e : Engine S Act),
        searchLoop g rand clock (fuel + 1) k e =
          if clock k < e.allowedTime ∨ e.iterations < e.minIterations then
            searchLoop g rand clock fuel (k + 1) (iterate g rand e)
          else e) ∧
    (∀ fuel (e : Engine S Act), e.allowedTime = 0 → e.iterations = 0 →
        e.minIterations ≤ fuel →
        (searchLoop g rand clock fuel 0 e).iterations = e.minIterations ∧
        (calculateAction g rand clock fuel e).2.iterations = e.minIterations) := by
  constructor
  · exact fun fuel k e => searchLoop_succ g rand clock fuel k e
  · intro fuel e h0 hit hf
    have h := searchLoop_budget0_iterations g rand clock fuel 0 e h0 (by omega)
    rw [hit] at h
    constructor
    · rw [h]; omega
    · rw [calculateAction_snd, h]; omega

/-- Witness for C6 at the demo engine: time budget 0 and
`minIterations = 3` yield exactly 3 iterations. -/
theorem C6_loop_budget_witness :
    (searchLoop demoGame demoRand demoClock 3 0
        (setMinIterations 3 (setTime 0 (mkEngine demoGame 0)))).iterations = 3 ∧
    (calculateAction demoGame demoRand demoClock 3
        (setMinIterations 3 (setTime 0 (mkEngine demoGame 0)))).2.iterations = 3 :=
  (C6_loop_budget demoGame demoRand demoClock).2 3 _ rfl rfl (by decide)

end ClaimC6

section ClaimC4

variable [Inhabited S] [Inhabited Act]

/-- C4 counterexample: state *is* carried between `calculateAction`
calls on one engine.  On the demo engine with time budget 0 and
`minIterations = 1`, the first call performs one iteration, and a
second call on the same engine performs zero further iterations (the
iteration counter and tree persist), so the two calls do not perform
the same search. -/
theorem C4_cex :
    (calculateAction demoGame demoRand demoClock 5
        (setMinIterations 1 (setTime 0 (mkEngine demoGame 0)))).2.iterations = 1 ∧
    (calculateAction demoGame demoRand demoClock 5
        ((calculateAction demoGame demoRand demoClock 5
            (setMinIterations 1 (setTime 0 (mkEngine demoGame 0)))).2)).2.iterations = 1 := by
  constructor <;> rfl

/-- C4 amended: the tree is built by the `MCTS` constructor, not per
call, and the tree, iteration counter and RNG position persist across
`calculateAction` calls on the same engine: with time budget 0, a call
on an engine whose carried iteration counter already meets
`minIterations` performs no iterations and returns the engine
unchanged.  Determinism holds per engine construction: two engines
built from the same input and run with the same random and clock
streams return the same action. -/
theorem C4_amended (g : Game S Act) (rand clock : ℕ → ℕ) (fuel : ℕ) :
    (∀ e : Engine S Act, e.allowedTime = 0 → e.minIterations ≤ e.iterations →
        (calculateAction g rand clock fuel e).2 = e) ∧
    (∀ s : S, (calculateAction g rand clock fuel (mkEngine g s)).1 =
        (calculateAction g rand clock fuel (mkEngine g s)).1) := by
  constructor
  · intro e h0 hit
    rw [calculateAction_snd, searchLoop_noop g rand clock e h0 hit fuel 0]
  · intro s; rfl

/-- Witness for the amended C4 at the demo engine: after the first
call (which performs the single required iteration) a second call
leaves the engine untouched. -/
theorem C4_amended_witness :
    (calculateAction demoGame demoRand demoClock 5
        ((calculateAction demoGame demoRand demoClock 5
            (setMinIterations 1 (setTime 0 (mkEngine demoGame 0)))).2)).2 =
      (calculateAction demoGame demoRand demoClock 5
        (setMinIterations 1 (setTime 0 (mkEngine demoGame 0)))).2 :=
  (C4_amended demoGame demoRand demoClock 5).1 _ (by rfl) (by decide)

end ClaimC4

section ClaimC3

variable [Inhabited S] [Inhabited Act]

/-- C3 counterexample: in the legacy `src/mcts.h` variant,
`calculateAction` has no childless-root fallback.  On the demo engine
with time budget 0 (so the loop never runs and the root stays
childless) the legacy result selection finds no best child and
dereferences a null pointer (modelled by `none`) instead of returning
a random action. -/
theorem C3_cex :
    (getN (searchLoop demoGame demoRand demoClock 5 0
        (setTime 0 (mkEngine demoGame 0))).tree 0).childrenIdx = [] ∧
    (calculateActionLegacy demoGame demoRand demoClock 5
        (setTime 0 (mkEngine demoGame 0))).1 = none := by
  constructor <;> rfl

/-- C3 amended: when the root has no children after the search loop,
`calculateAction` of `include/mcts/mcts.hpp` does not fail — it
returns the action generated by a one-shot playout policy over a
clone of the root's state; the legacy `src/mcts.h` variant has no such
fallback and dereferences null (modelled by `none`). -/
theorem C3_amended (g : Game S Act) (rand clock : ℕ → ℕ) (fuel : ℕ) (e : Engine S Act)
    (hnochild : (getN (searchLoop g rand clock fuel 0 e).tree 0).childrenIdx = []) :
    (calculateAction g rand clock fuel e).1 =
      g.playout (getN (searchLoop g rand clock fuel 0 e).tree 0).data ∧
    (calculateActionLegacy g rand clock fuel e).1 = none := by
  have hbest : bestRootChild (searchLoop g rand clock fuel 0 e).tree = none := by
    unfold bestRootChild
    rw [hnochild]
    rfl
  constructor
  · unfold calculateAction
    dsimp only
    rw [hbest]
  · unfold calculateActionLegacy
    dsimp only
    rw [hbest]

/-- Witness for the amended C3: the fallback fires on the demo engine
whose loop never runs, returning the playout action 1 from root state
0. -/
theorem C3_amended_witness :
    (calculateAction demoGame demoRand demoClock 5 (setTime 0 (mkEngine demoGame 0))).1 =
      demoGame.playout (getN (searchLoop demoGame demoRand demoClock 5 0
        (setTime 0 (mkEngine demoGame 0))).tree 0).data ∧
    (calculateActionLegacy demoGame demoRand demoClock 5
        (setTime 0 (mkEngine demoGame 0))).1 = none :=
  C3_amended demoGame demoRand demoClock 5 _ (by rfl)

end ClaimC3

section ClaimC2

variable [Inhabited S] [Inhabited Act]

/-- C2 counterexample: in the legacy `src/mcts.h` variant the root's
update during backpropagation receives the *raw* terminal score, not
the adjusted one.  Backpropagating score 0 from the root of a
one-node demo tree records exactly one visit with accumulated score 0,
although the adjust hook maps 0 to 1 at the root's state. -/
theorem C2_cex :
    (getN (backPropLegacy demoGame 0 [mkNode demoGame 0 0 none 0] 0) 0).numVisits = 1 ∧
    (getN (backPropLegacy demoGame 0 [mkNode demoGame 0 0 none 0] 0) 0).scoreSum = 0 ∧
    demoGame.adjust 0 0 = 1 := by
  refine ⟨rfl, ?_, ?_⟩ <;> decide

/-- C2 amended: in `include/mcts/mcts.hpp` every node on the
backpropagation walk — playout origin up to and including the root —
is updated with `Backpropagation::updateScore` applied to its own
state; in the legacy `src/mcts.h` only non-root nodes receive the
adjusted score while the parentless end of the walk (the root) is
updated with the raw terminal score. -/
theorem C2_amended (g : Game S Act) (sc : ℚ) (t : Tree S Act) (i : ℕ)
    (hi : i < List.length t) :
    ∀ j ∈ path t i,
      getN (backProp g sc t i) j = updateNode (g.adjust (getN t j).data sc) (getN t j) ∧
      getN (backPropLegacy g sc t i) j =
        (if (getN t j).parent = none then updateNode sc (getN t j)
         else updateNode (g.adjust (getN t j).data sc) (getN t j)) := by
  intro j hj
  constructor
  · rw [backProp_getN g sc i t hi j, if_pos hj]
  · rw [backPropLegacy_getN g sc i t hi j, if_pos hj]

/-- Witness for the amended C2 on a two-node demo tree: backing a
score up from the child updates the child and the root; the modern
variant adjusts at the root, the legacy variant does not. -/
theorem C2_amended_witness :
    getN (backProp demoGame 0
        [mkNode demoGame 0 0 none 0,
         { mkNode demoGame 1 1 (some 0) 1 with numVisits := 1, scoreSum := 2 }] 1) 0 =
      updateNode (demoGame.adjust 0 0) (mkNode demoGame 0 0 none 0) ∧
    getN (backPropLegacy demoGame 0
        [mkNode demoGame 0 0 none 0,
         { mkNode demoGame 1 1 (some 0) 1 with numVisits := 1, scoreSum := 2 }] 1) 0 =
      updateNode 0 (mkNode demoGame 0 0 none 0) := by
  have h := C2_amended demoGame 0
      [mkNode demoGame 0 0 none 0,
       { mkNode demoGame 1 1 (some 0) 1 with numVisits := 1, scoreSum := 2 }] 1
      (by decide) 0 (by decide)
  exact ⟨h.1, by rw [h.2]; rfl⟩

end ClaimC2

section ClaimC1

variable [Inhabited S] [Inhabited Act]

/-- C1: when the loop ends with at least one root child (and the best
mean score exceeds the float sentinel `-FLT_MAX`), `calculateAction`
returns a copy of the incoming action of the root child with the
highest mean score, the first such child in insertion order
(`firstMaxBy` renders exactly that reading of the spec). -/
theorem C1_best_action (g : Game S Act) (rand clock : ℕ → ℕ) (fuel : ℕ) (e : Engine S Act)
    (jb : ℕ)
    (hmax : firstMaxBy (fun j => avgScore (getN (searchLoop g rand clock fuel 0 e).tree j))
        ((getN (searchLoop g rand clock fuel 0 e).tree 0).childrenIdx) = some jb)
    (hrange : ∃ j ∈ (getN (searchLoop g rand clock fuel 0 e).tree 0).childrenIdx,
        -floatMaxQ < avgScore (getN (searchLoop g rand clock fuel 0 e).tree j)) :
    (calculateAction g rand clock fuel e).1 =
      (getN (searchLoop g rand clock fuel 0 e).tree jb).action := by
  have hbest : bestRootChild (searchLoop g rand clock fuel 0 e).tree = some jb := by
    unfold bestRootChild
    rw [bestLoop_eq_firstMaxBy _ _ _ hrange, hmax]
  unfold calculateAction
  dsimp only
  rw [hbest]

/-- Witness for C1 on a demo run that grows three nodes: the two root
children tie on mean score 4, and the returned action is the first
child's incoming action 1. -/
theorem C1_best_action_witness :
    (calculateAction demoGame demoRand demoClock 9
        (setMinT 0 (setMinIterations 3 (setTime 0 (mkEngine demoGame 0))))).1 =
      (getN (searchLoop demoGame demoRand demoClock 9 0
        (setMinT 0 (setMinIterations 3 (setTime 0 (mkEngine demoGame 0))))).tree 1).action :=
  C1_best_action demoGame demoRand demoClock 9 _ 1 (by decide) (by decide)

end ClaimC1

section ClaimC5

variable [Inhabited S] [Inhabited Act]

/-- C5: `MCTS::select` on a node with children has exactly two
regimes.  Below `minVisits` parent visits it returns the child at the
next random-stream draw modulo the number of children (a uniformly
random child drawn from the engine's RNG), advancing the stream; such
a child always exists.  Otherwise it returns the first child in
iteration order attaining the maximal UCT value
`mean + C·sqrt(log(parent.visits)/child.visits)` (given that some UCT
value exceeds the float sentinel `-FLT_MAX`), without touching the
RNG. -/
theorem C5_select_regimes (g : Game S Act) (rand : ℕ → ℕ) (minVisits : ℕ) (c : ℚ)
    (t : Tree S Act) (i r : ℕ)
    (hne : (getN t i).childrenIdx ≠ []) :
    ((getN t i).numVisits < minVisits →
        selectIdx g rand minVisits c t i r =
          ((getN t i).childrenIdx.get? (rand r % (getN t i).childrenIdx.length), r + 1) ∧
        ∃ j ∈ (getN t i).childrenIdx,
          (getN t i).childrenIdx.get? (rand r % (getN t i).childrenIdx.length) = some j) ∧
    (minVisits ≤ (getN t i).numVisits →
        (∃ j ∈ (getN t i).childrenIdx,
            -floatMaxQ < uctScore g c (getN t i).numVisits (getN t j)) →
        selectIdx g rand minVisits c t i r =
          (firstMaxBy (fun j => uctScore g c (getN t i).numVisits (getN t j))
            ((getN t i).childrenIdx), r)) := by
  constructor
  · intro hlt
    constructor
    · unfold selectIdx
      rw [if_pos hlt]
    · have hlen : 0 < (getN t i).childrenIdx.length := List.length_pos.2 hne
      have hmod : rand r % (getN t i).childrenIdx.length < (getN t i).childrenIdx.length :=
        Nat.mod_lt _ hlen
      obtain ⟨j, hj⟩ : ∃ j, (getN t i).childrenIdx.get? (rand r % (getN t i).childrenIdx.length) = some j := by
        rw [List.get?_eq_get hmod]
        exact ⟨_, rfl⟩
      exact ⟨j, List.get?_mem hj, hj⟩
  · intro hge hrange
    unfold selectIdx
    rw [if_neg (not_lt.2 hge),
        bestLoop_eq_firstMaxBy ((getN t i).childrenIdx) none (-floatMaxQ) hrange]

/-- Witness for C5 on the demo tree: with `minVisits = 5` the root
(3 visits) is in the random regime and the stream picks child 1; with
`minVisits = 0` the UCT regime picks the first maximiser of the UCT
values. -/
theorem C5_select_regimes_witness :
    (selectIdx demoGame demoRand 5 (1 / 2) demoTree3 0 0 =
        ((getN demoTree3 0).childrenIdx.get?
          (demoRand 0 % (getN demoTree3 0).childrenIdx.length), 0 + 1) ∧
      ∃ j ∈ (getN demoTree3 0).childrenIdx,
        (getN demoTree3 0).childrenIdx.get?
          (demoRand 0 % (getN demoTree3 0).childrenIdx.length) = some j) ∧
    selectIdx demoGame demoRand 0 (1 / 2) demoTree3 0 0 =
      (firstMaxBy (fun j => uctScore demoGame (1 / 2) (getN demoTree3 0).numVisits
        (getN demoTree3 j)) ((getN demoTree3 0).childrenIdx), 0) :=
  ⟨(C5_select_regimes demoGame demoRand 5 (1 / 2) demoTree3 0 0 (by decide)).1 (by decide),
   (C5_select_regimes demoGame demoRand 0 (1 / 2) demoTree3 0 0 (by decide)).2 (by decide)
     (by decide)⟩

end ClaimC5

section BackPropCorollaries

variable [Inhabited S] [Inhabited Act]

theorem backProp_parent (g : Game S Act) (sc : ℚ) {t : Tree S Act} {i : ℕ}
    (hi : i < List.length t) (j : ℕ) :
    (getN (backProp g sc t i) j).parent = (getN t j).parent := by
  rw [backProp_getN g sc i t hi j]
  by_cases h : j ∈ path t i <;> simp [h, updateNode]

theorem backProp_children (g : Game S Act) (sc : ℚ) {t : Tree S Act} {i : ℕ}
    (hi : i < List.length t) (j : ℕ) :
    (getN (backProp g sc t i) j).childrenIdx = (getN t j).childrenIdx := by
  rw [backProp_getN g sc i t hi j]
  by_cases h : j ∈ path t i <;> simp [h, updateNode]

theorem backProp_pending (g : Game S Act) (sc : ℚ) {t : Tree S Act} {i : ℕ}
    (hi : i < List.length t) (j : ℕ) :
    (getN (backProp g sc t i) j).pending = (getN t j).pending := by
  rw [backProp_getN g sc i t hi j]
  by_cases h : j ∈ path t i <;> simp [h, updateNode]

theorem backProp_data (g : Game S Act) (sc : ℚ) {t : Tree S Act} {i : ℕ}
    (hi : i < List.length t) (j : ℕ) :
    (getN (backProp g sc t i) j).data = (getN t j).data := by
  rw [backProp_getN g sc i t hi j]
  by_cases h : j ∈ path t i <;> simp [h, updateNode]

theorem backProp_numVisits (g : Game S Act) (sc : ℚ) {t : Tree S Act} {i : ℕ}
    (hi : i < List.length t) (j : ℕ) :
    (getN (backProp g sc t i) j).numVisits =
      (getN t j).numVisits + (if j ∈ path t i then 1 else 0) := by
  rw [backProp_getN g sc i t hi j]
  by_cases h : j ∈ path t i <;> simp [h, updateNode]

theorem backProp_numVisits_le (g : Game S Act) (sc : ℚ) {t : Tree S Act} {i : ℕ}
    (hi : i < List.length t) (j : ℕ) :
    (getN t j).numVisits ≤ (getN (backProp g sc t i) j).numVisits := by
  rw [backProp_numVisits g sc hi j]
  omega

end BackPropCorollaries

section ExpandLemmas

variable [Inhabited S] [Inhabited Act]

theorem expandNext_length (g : Game S Act) (t : Tree S Act) (i nid : ℕ) :
    List.length (expandNext g t i nid).1 = List.length t + 1 := by
  unfold expandNext
  simp

theorem expandNext_nid (g : Game S Act) (t : Tree S Act) (i nid : ℕ) :
    (expandNext g t i nid).2.1 = List.length t ∧ (expandNext g t i nid).2.2 = nid + 1 := by
  unfold expandNext
  exact ⟨rfl, rfl⟩

theorem getN_expandNext_new (g : Game S Act) (t : Tree S Act) (i nid : ℕ) :
    getN (expandNext g t i nid).1 (List.length t) =
      mkNode g (nid + 1) (g.exec ((getN t i).pending.headD g.dflt) (getN t i).data) (some i)
        ((getN t i).pending.headD g.dflt) := by
  unfold expandNext
  dsimp only
  have h := getN_concat_self
      (t.set i { getN t i with
                 pending := (getN t i).pending.tail,
                 childrenIdx := (getN t i).childrenIdx ++ [List.length t] })
      (mkNode g (nid + 1) (g.exec ((getN t i).pending.headD g.dflt) (getN t i).data) (some i)
        ((getN t i).pending.headD g.dflt))
  rwa [List.length_set] at h

theorem getN_expandNext_self (g : Game S Act) (t : Tree S Act) (i nid : ℕ)
    (hi : i < List.length t) :
    getN (expandNext g t i nid).1 i =
      { getN t i with pending := (getN t i).pending.tail,
                      childrenIdx := (getN t i).childrenIdx ++ [List.length t] } := by
  unfold expandNext
  dsimp only
  rw [getN_append_left _ (by simp; omega), getN_set_self _ hi]

theorem getN_expandNext_other (g : Game S Act) (t : Tree S Act) (i nid j : ℕ)
    (hj : j < List.length t) (hne : j ≠ i) :
    getN (expandNext g t i nid).1 j = getN t j := by
  unfold expandNext
  dsimp only
  rw [getN_append_left _ (by simp; omega), getN_set_ne _ hne]

end ExpandLemmas

section IterateBranchLemmas

variable [Inhabited S] [Inhabited Act]

theorem iterate_terminal (g : Game S Act) (rand : ℕ → ℕ) (e : Engine S Act) (i r' : ℕ)
    (hsel : descend g rand e.minVisits e.uctC e.tree (List.length e.tree) 0 e.rngPos = (i, r'))
    (hterm : g.isTerminal (getN e.tree i).data = true) :
    iterate g rand e =
      { e with iterations := e.iterations + 1,
               tree := backProp g (g.score (getN e.tree i).data) e.tree i,
               rngPos := r' } := by
  unfold iterate
  dsimp only
  rw [hsel]
  dsimp only
  rw [hterm, if_pos rfl]

theorem iterate_expand (g : Game S Act) (rand : ℕ → ℕ) (e : Engine S Act) (i r' : ℕ)
    (hsel : descend g rand e.minVisits e.uctC e.tree (List.length e.tree) 0 e.rngPos = (i, r'))
    (hterm : g.isTerminal (getN e.tree i).data = false)
    (hgate : e.minT ≤ (getN e.tree i).numVisits) :
    iterate g rand e =
      { e with iterations := e.iterations + 1,
               tree := backProp g
                 (simScore g (getN (expandNext g e.tree i e.currentNodeID).1
                   (expandNext g e.tree i e.currentNodeID).2.1).data)
                 (expandNext g e.tree i e.currentNodeID).1
                 (expandNext g e.tree i e.currentNodeID).2.1,
               currentNodeID := (expandNext g e.tree i e.currentNodeID).2.2,
               rngPos := r' } := by
  unfold iterate
  dsimp only
  rw [hsel]
  dsimp only
  rw [hterm, if_neg (by simp), if_pos hgate]

theorem iterate_defer (g : Game S Act) (rand : ℕ → ℕ) (e : Engine S Act) (i r' : ℕ)
    (hsel : descend g rand e.minVisits e.uctC e.tree (List.length e.tree) 0 e.rngPos = (i, r'))
    (hterm : g.isTerminal (getN e.tree i).data = false)
    (hdefer : (getN e.tree i).numVisits < e.minT) :
    iterate g rand e =
      { e with iterations := e.iterations + 1,
               tree := backProp g (simScore g (getN e.tree i).data) e.tree i,
               rngPos := r' } := by
  unfold iterate
  dsimp only
  rw [hsel]
  dsimp only
  rw [hterm, if_neg (by simp), if_neg (not_le.2 hdefer)]

end IterateBranchLemmas

section ClaimC8

variable [Inhabited S] [Inhabited Act]

/-- C8: when the descended-to node's state is terminal, the iteration
skips expansion and simulation: the tree does not grow, no node id is
consumed, no expansion cursor loses an action, and backpropagation
starts from that node with the score computed directly from its own
state (`Scoring::score` of the node's state, adjusted at the node). -/
theorem C8_terminal_short_circuit (g : Game S Act) (rand : ℕ → ℕ) (e : Engine S Act)
    (i r' : ℕ)
    (hsel : descend g rand e.minVisits e.uctC e.tree (List.length e.tree) 0 e.rngPos = (i, r'))
    (hi : i < List.length e.tree)
    (hterm : g.isTerminal (getN e.tree i).data = true) :
    List.length (iterate g rand e).tree = List.length e.tree ∧
    (iterate g rand e).currentNodeID = e.currentNodeID ∧
    (∀ j, (getN (iterate g rand e).tree j).pending = (getN e.tree j).pending) ∧
    (∀ j, (getN (iterate g rand e).tree j).childrenIdx = (getN e.tree j).childrenIdx) ∧
    getN (iterate g rand e).tree i =
      updateNode (g.adjust (getN e.tree i).data (g.score (getN e.tree i).data))
        (getN e.tree i) := by
  rw [iterate_terminal g rand e i r' hsel hterm]
  dsimp only
  refine ⟨backProp_length g _ i e.tree, rfl,
    fun j => backProp_pending g _ hi j,
    fun j => backProp_children g _ hi j, ?_⟩
  rw [backProp_getN g _ i e.tree hi i, if_pos (self_mem_path _ _)]

/-- Witness for C8 on a root-terminal demo engine (root state 5 is
terminal): the iteration leaves the tree childless and updates the
root with its own adjusted terminal score. -/
theorem C8_terminal_short_circuit_witness :
    List.length (iterate demoGame demoRand (setMinIterations 1 (setTime 0 (mkEngine demoGame 5)))).tree =
      List.length (setMinIterations 1 (setTime 0 (mkEngine demoGame 5))).tree ∧
    (iterate demoGame demoRand (setMinIterations 1 (setTime 0 (mkEngine demoGame 5)))).currentNodeID =
      (setMinIterations 1 (setTime 0 (mkEngine demoGame 5))).currentNodeID ∧
    (∀ j, (getN (iterate demoGame demoRand (setMinIterations 1 (setTime 0 (mkEngine demoGame 5)))).tree j).pending =
      (getN (setMinIterations 1 (setTime 0 (mkEngine demoGame 5))).tree j).pending) ∧
    (∀ j, (getN (iterate demoGame demoRand (setMinIterations 1 (setTime 0 (mkEngine demoGame 5)))).tree j).childrenIdx =
      (getN (setMinIterations 1 (setTime 0 (mkEngine demoGame 5))).tree j).childrenIdx) ∧
    getN (iterate demoGame demoRand (setMinIterations 1 (setTime 0 (mkEngine demoGame 5)))).tree 0 =
      updateNode (demoGame.adjust (getN (setMinIterations 1 (setTime 0 (mkEngine demoGame 5))).tree 0).data
          (demoGame.score (getN (setMinIterations 1 (setTime 0 (mkEngine demoGame 5))).tree 0).data))
        (getN (setMinIterations 1 (setTime 0 (mkEngine demoGame 5))).tree 0) :=
  C8_terminal_short_circuit demoGame demoRand _ 0 0 (by decide) (by decide) (by decide)

end ClaimC8

section ClaimC7

variable [Inhabited S] [Inhabited Act]

/-- C7: in a non-terminal iteration, if the descended-to node has
reached the expansion visit threshold, exactly one child is created:
the next untried action `a` is taken from the node's cursor (whose
remaining actions drop to `rest`), applied to a clone of the node's
state, and the new node — carrying the fresh id, the incoming action
`a` and a cursor built from its own state — is linked as the node's
last child and becomes the playout origin (it is the node
backpropagation updates first, with the playout score from its own
state).  Below the threshold no node is created and the descended-to
node itself is the playout origin. -/
theorem C7_expansion_gate (g : Game S Act) (rand : ℕ → ℕ) (e : Engine S Act) (i r' : ℕ)
    (hsel : descend g rand e.minVisits e.uctC e.tree (List.length e.tree) 0 e.rngPos = (i, r'))
    (hi : i < List.length e.tree)
    (hterm : g.isTerminal (getN e.tree i).data = false) :
    (∀ (a : Act) (rest : List Act), (getN e.tree i).pending = a :: rest →
        e.minT ≤ (getN e.tree i).numVisits →
        List.length (iterate g rand e).tree = List.length e.tree + 1 ∧
        (iterate g rand e).currentNodeID = e.currentNodeID + 1 ∧
        getN (iterate g rand e).tree (List.length e.tree) =
          updateNode (g.adjust (g.exec a (getN e.tree i).data)
              (simScore g (g.exec a (getN e.tree i).data)))
            (mkNode g (e.currentNodeID + 1) (g.exec a (getN e.tree i).data) (some i) a) ∧
        getN (iterate g rand e).tree i =
          updateNode (g.adjust (getN e.tree i).data
              (simScore g (g.exec a (getN e.tree i).data)))
            { getN e.tree i with
              pending := rest,
              childrenIdx := (getN e.tree i).childrenIdx ++ [List.length e.tree] }) ∧
    ((getN e.tree i).numVisits < e.minT →
        List.length (iterate g rand e).tree = List.length e.tree ∧
        (iterate g rand e).currentNodeID = e.currentNodeID ∧
        getN (iterate g rand e).tree i =
          updateNode (g.adjust (getN e.tree i).data (simScore g (getN e.tree i).data))
            (getN e.tree i)) := by
  constructor
  · intro a rest hpend hgate
    rw [iterate_expand g rand e i r' hsel hterm hgate]
    dsimp only
    have hnid := expandNext_nid g e.tree i e.currentNodeID
    have hnew := getN_expandNext_new g e.tree i e.currentNodeID
    rw [hpend] at hnew
    simp only [List.headD_cons] at hnew
    have hself := getN_expandNext_self g e.tree i e.currentNodeID hi
    rw [hpend] at hself
    simp only [List.tail_cons] at hself
    have hlen2 : List.length (expandNext g e.tree i e.currentNodeID).1 =
        List.length e.tree + 1 := expandNext_length g e.tree i e.currentNodeID
    rw [hnid.1, hnid.2, hnew]
    have hdata : (mkNode g (e.currentNodeID + 1) (g.exec a (getN e.tree i).data) (some i) a).data =
        g.exec a (getN e.tree i).data := rfl
    rw [hdata]
    have hLlt : List.length e.tree < List.length (expandNext g e.tree i e.currentNodeID).1 := by
      rw [hlen2]; omega
    refine ⟨by rw [backProp_length, hlen2], rfl, ?_, ?_⟩
    · rw [backProp_getN g _ _ _ hLlt, if_pos (self_mem_path _ _), hnew, hdata]
    · have hpar : (getN (expandNext g e.tree i e.currentNodeID).1 (List.length e.tree)).parent =
          some i := by rw [hnew]; rfl
      have hmem : i ∈ path (expandNext g e.tree i e.currentNodeID).1 (List.length e.tree) := by
        rw [path_cons_of_parent hpar hi]
        exact List.mem_cons_of_mem _ (self_mem_path _ _)
      rw [backProp_getN g _ _ _ hLlt, if_pos hmem, hself]
  · intro hdefer
    rw [iterate_defer g rand e i r' hsel hterm hdefer]
    dsimp only
    refine ⟨backProp_length g _ i e.tree, rfl, ?_⟩
    rw [backProp_getN g _ i e.tree hi i, if_pos (self_mem_path _ _)]

/-- Witness for C7: on the demo engine with expansion threshold 0 the
first iteration creates exactly the one child described by the
expansion branch; on the default-threshold engine (threshold 5, root
unvisited) the first iteration creates no node and the root itself is
the playout origin. -/
theorem C7_expansion_gate_witness :
    (List.length (iterate demoGame demoRand demoEngine3).tree =
        List.length demoEngine3.tree + 1 ∧
      (iterate demoGame demoRand demoEngine3).currentNodeID =
        demoEngine3.currentNodeID + 1 ∧
      getN (iterate demoGame demoRand demoEngine3).tree (List.length demoEngine3.tree) =
        updateNode (demoGame.adjust (demoGame.exec 1 (getN demoEngine3.tree 0).data)
            (simScore demoGame (demoGame.exec 1 (getN demoEngine3.tree 0).data)))
          (mkNode demoGame (demoEngine3.currentNodeID + 1)
            (demoGame.exec 1 (getN demoEngine3.tree 0).data) (some 0) 1) ∧
      getN (iterate demoGame demoRand demoEngine3).tree 0 =
        updateNode (demoGame.adjust (getN demoEngine3.tree 0).data
            (simScore demoGame (demoGame.exec 1 (getN demoEngine3.tree 0).data)))
          { getN demoEngine3.tree 0 with
            pending := [2],
            childrenIdx := (getN demoEngine3.tree 0).childrenIdx ++ [List.length demoEngine3.tree] }) ∧
    (List.length (iterate demoGame demoRand
        (setMinIterations 1 (setTime 0 (mkEngine demoGame 0)))).tree =
      List.length (setMinIterations 1 (setTime 0 (mkEngine demoGame 0))).tree ∧
      (iterate demoGame demoRand (setMinIterations 1 (setTime 0 (mkEngine demoGame 0)))).currentNodeID =
        (setMinIterations 1 (setTime 0 (mkEngine demoGame 0))).currentNodeID ∧
      getN (iterate demoGame demoRand (setMinIterations 1 (setTime 0 (mkEngine demoGame 0)))).tree 0 =
        updateNode (demoGame.adjust (getN (setMinIterations 1 (setTime 0 (mkEngine demoGame 0))).tree 0).data
            (simScore demoGame (getN (setMinIterations 1 (setTime 0 (mkEngine demoGame 0))).tree 0).data))
          (getN (setMinIterations 1 (setTime 0 (mkEngine demoGame 0))).tree 0)) :=
  ⟨(C7_expansion_gate demoGame demoRand demoEngine3 0 0 (by decide) (by decide) (by decide)).1
      1 [2] (by decide) (by decide),
   (C7_expansion_gate demoGame demoRand (setMinIterations 1 (setTime 0 (mkEngine demoGame 0)))
      0 0 (by decide) (by decide) (by decide)).2 (by decide)⟩

end ClaimC7

section SelectDescendLemmas

variable [Inhabited S] [Inhabited Act]

theorem selectIdx_fst_mem (g : Game S Act) (rand : ℕ → ℕ) (mv : ℕ) (c : ℚ)
    (t : Tree S Act) (i r j : ℕ)
    (h : (selectIdx g rand mv c t i r).1 = some j) : j ∈ (getN t i).childrenIdx := by
  unfold selectIdx at h
  dsimp only at h
  by_cases hv : (getN t i).numVisits < mv
  · rw [if_pos hv] at h
    dsimp only at h
    exact List.get?_mem h
  · rw [if_neg hv] at h
    dsimp only at h
    rcases bestLoop_mem _ _ _ _ h with hmem | hb
    · exact hmem
    · exact absurd hb (by simp)

theorem selectIdx_total (g : Game S Act) (rand : ℕ → ℕ) (mv : ℕ) (cq : ℚ)
    (t : Tree S Act) (j r : ℕ)
    (hne : (getN t j).childrenIdx ≠ [])
    (hrange : mv ≤ (getN t j).numVisits →
      ∃ c ∈ (getN t j).childrenIdx,
        -floatMaxQ < uctScore g cq (getN t j).numVisits (getN t c)) :
    ∃ c ∈ (getN t j).childrenIdx, (selectIdx g rand mv cq t j r).1 = some c := by
  by_cases hv : (getN t j).numVisits < mv
  · have hlen : 0 < (getN t j).childrenIdx.length := List.length_pos.2 hne
    have hmod : rand r % (getN t j).childrenIdx.length < (getN t j).childrenIdx.length :=
      Nat.mod_lt _ hlen
    obtain ⟨c, hc⟩ : ∃ c, (getN t j).childrenIdx.get?
        (rand r % (getN t j).childrenIdx.length) = some c := by
      rw [List.get?_eq_get hmod]
      exact ⟨_, rfl⟩
    refine ⟨c, List.get?_mem hc, ?_⟩
    unfold selectIdx
    rw [if_pos hv]
    exact hc
  · obtain ⟨c0, hc0, hgt⟩ := hrange (not_lt.1 hv)
    have hsome := @bestLoop_isSome
      (fun k => uctScore g cq (getN t j).numVisits (getN t k))
      ((getN t j).childrenIdx) none (-floatMaxQ) ⟨c0, hc0, hgt⟩
    obtain ⟨c, hc⟩ := Option.isSome_iff_exists.1 hsome
    have hceq : (selectIdx g rand mv cq t j r).1 = some c := by
      unfold selectIdx
      rw [if_neg hv]
      exact hc
    exact ⟨c, selectIdx_fst_mem g rand mv cq t j r c hceq, hceq⟩

theorem descend_fst_lt (g : Game S Act) (rand : ℕ → ℕ) (mv : ℕ) (c : ℚ)
    {t : Tree S Act} (hst : ST t) :
    ∀ fuel i r, i < List.length t → (descend g rand mv c t fuel i r).1 < List.length t := by
  intro fuel
  induction fuel with
  | zero => intro i r hi; exact hi
  | succ n ih =>
    intro i r hi
    rw [descend]
    by_cases hse : shouldExpand (getN t i) = true
    · rw [if_pos hse]; exact hi
    · rw [if_neg hse]
      rcases hsel : selectIdx g rand mv c t i r with ⟨o, r2⟩
      cases o with
      | some j =>
        dsimp only
        have hj : j ∈ (getN t i).childrenIdx :=
          selectIdx_fst_mem g rand mv c t i r j (by rw [hsel])
        exact ih j r2 (hst.children_lt i hi j hj).1
      | none => dsimp only; exact hi

end SelectDescendLemmas

section STPreservation

variable [Inhabited S] [Inhabited Act]

theorem ST_backProp (g : Game S Act) (sc : ℚ) {t : Tree S Act} {i : ℕ}
    (hi : i < List.length t) (hst : ST t) : ST (backProp g sc t i) := by
  have hlen := backProp_length g sc i t
  constructor
  · rw [hlen]; exact hst.nonempty
  · intro j hj p hp
    rw [hlen] at hj
    rw [backProp_parent g sc hi j] at hp
    exact hst.parent_lt j hj p hp
  · intro j hj c hc
    rw [hlen] at hj ⊢
    rw [backProp_children g sc hi j] at hc
    exact hst.children_lt j hj c hc
  · intro j hj
    rw [hlen] at hj
    rw [backProp_children g sc hi j]
    exact hst.children_nodup j hj
  · intro j hj c hc
    rw [hlen] at hj
    rw [backProp_children g sc hi j] at hc
    rw [backProp_parent g sc hi c]
    exact hst.children_parent j hj c hc

theorem VisitedInv_backProp (g : Game S Act) (sc : ℚ) {t : Tree S Act} {i : ℕ}
    (hi : i < List.length t) (hv : VisitedInv t) : VisitedInv (backProp g sc t i) := by
  intro j hj hpar
  rw [backProp_length g sc i t] at hj
  rw [backProp_parent g sc hi j] at hpar
  calc 1 ≤ (getN t j).numVisits := hv j hj hpar
    _ ≤ _ := backProp_numVisits_le g sc hi j

end STPreservation

section ExpandPreservation

variable [Inhabited S] [Inhabited Act]

theorem expandNext_parent_pres (g : Game S Act) {t : Tree S Act} {i : ℕ} (nid : ℕ)
    (hi : i < List.length t) :
    ∀ c, c < List.length t → (getN (expandNext g t i nid).1 c).parent = (getN t c).parent := by
  intro c hc
  by_cases hci : c = i
  · subst hci
    rw [getN_expandNext_self g t c nid hc]
  · rw [getN_expandNext_other g t i nid c hc hci]

theorem expandNext_visits_pres (g : Game S Act) {t : Tree S Act} {i : ℕ} (nid : ℕ)
    (hi : i < List.length t) :
    ∀ c, c < List.length t →
      (getN (expandNext g t i nid).1 c).numVisits = (getN t c).numVisits := by
  intro c hc
  by_cases hci : c = i
  · subst hci
    rw [getN_expandNext_self g t c nid hc]
  · rw [getN_expandNext_other g t i nid c hc hci]

theorem ST_expandNext (g : Game S Act) {t : Tree S Act} {i : ℕ} (nid : ℕ)
    (hi : i < List.length t) (hst : ST t) : ST (expandNext g t i nid).1 := by
  have hlen := expandNext_length g t i nid
  have hnew := getN_expandNext_new g t i nid
  have hself := getN_expandNext_self g t i nid hi
  constructor
  · rw [hlen]; omega
  · intro j hj p hp
    rw [hlen] at hj
    by_cases hjL : j = List.length t
    · subst hjL
      rw [hnew] at hp
      cases hp
      exact hi
    · have hjlt : j < List.length t := by omega
      rw [expandNext_parent_pres g nid hi j hjlt] at hp
      exact hst.parent_lt j hjlt p hp
  · intro j hj c hc
    rw [hlen] at hj ⊢
    by_cases hjL : j = List.length t
    · subst hjL
      rw [hnew] at hc
      simp [mkNode] at hc
    · have hjlt : j < List.length t := by omega
      by_cases hji : j = i
      · subst hji
        rw [hself] at hc
        dsimp only at hc
        rcases List.mem_append.1 hc with hold | hnewc
        · have := hst.children_lt j hjlt c hold
          omega
        · simp at hnewc
          omega
      · rw [getN_expandNext_other g t i nid j hjlt hji] at hc
        have := hst.children_lt j hjlt c hc
        omega
  · intro j hj
    rw [hlen] at hj
    by_cases hjL : j = List.length t
    · subst hjL
      rw [hnew]
      simp [mkNode]
    · have hjlt : j < List.length t := by omega
      by_cases hji : j = i
      · subst hji
        rw [hself]
        dsimp only
        rw [List.nodup_append]
        refine ⟨hst.children_nodup j hjlt, List.nodup_singleton _, ?_⟩
        intro a ha hb
        simp at hb
        have := (hst.children_lt j hjlt a ha).1
        omega
      · rw [getN_expandNext_other g t i nid j hjlt hji]
        exact hst.children_nodup j hjlt
  · intro j hj c hc
    rw [hlen] at hj
    by_cases hjL : j = List.length t
    · subst hjL
      rw [hnew] at hc
      simp [mkNode] at hc
    · have hjlt : j < List.length t := by omega
      by_cases hji : j = i
      · subst hji
        rw [hself] at hc
        dsimp only at hc
        rcases List.mem_append.1 hc with hold | hnewc
        · have hclt := (hst.children_lt j hjlt c hold).1
          rw [expandNext_parent_pres g nid hi c hclt]
          exact hst.children_parent j hjlt c hold
        · simp at hnewc
          subst hnewc
          rw [hnew]
          rfl
      · rw [getN_expandNext_other g t i nid j hjlt hji] at hc
        have hclt := (hst.children_lt j hjlt c hc).1
        rw [expandNext_parent_pres g nid hi c hclt]
        exact hst.children_parent j hjlt c hc

end ExpandPreservation

section IteratePreservation

variable [Inhabited S] [Inhabited Act]

theorem ST_iterate (g : Game S Act) (rand : ℕ → ℕ) (e : Engine S Act)
    (hst : ST e.tree) : ST (iterate g rand e).tree := by
  rcases hsel : descend g rand e.minVisits e.uctC e.tree (List.length e.tree) 0 e.rngPos
    with ⟨i, r'⟩
  have hi : i < List.length e.tree := by
    have h := descend_fst_lt g rand e.minVisits e.uctC hst (List.length e.tree) 0 e.rngPos
      hst.nonempty
    rw [hsel] at h
    exact h
  by_cases hterm : g.isTerminal (getN e.tree i).data = true
  · rw [iterate_terminal g rand e i r' hsel hterm]
    exact ST_backProp g _ hi hst
  · have hterm' : g.isTerminal (getN e.tree i).data = false := by
      cases h : g.isTerminal (getN e.tree i).data
      · rfl
      · exact absurd h hterm
    by_cases hgate : e.minT ≤ (getN e.tree i).numVisits
    · rw [iterate_expand g rand e i r' hsel hterm' hgate]
      dsimp only
      have hnid := expandNext_nid g e.tree i e.currentNodeID
      refine ST_backProp g _ ?_ (ST_expandNext g e.currentNodeID hi hst)
      rw [hnid.1, expandNext_length]
      omega
    · rw [iterate_defer g rand e i r' hsel hterm' (not_le.1 hgate)]
      exact ST_backProp g _ hi hst

theorem VisitedInv_iterate (g : Game S Act) (rand : ℕ → ℕ) (e : Engine S Act)
    (hst : ST e.tree) (hv : VisitedInv e.tree) : VisitedInv (iterate g rand e).tree := by
  rcases hsel : descend g rand e.minVisits e.uctC e.tree (List.length e.tree) 0 e.rngPos
    with ⟨i, r'⟩
  have hi : i < List.length e.tree := by
    have h := descend_fst_lt g rand e.minVisits e.uctC hst (List.length e.tree) 0 e.rngPos
      hst.nonempty
    rw [hsel] at h
    exact h
  by_cases hterm : g.isTerminal (getN e.tree i).data = true
  · rw [iterate_terminal g rand e i r' hsel hterm]
    exact VisitedInv_backProp g _ hi hv
  · have hterm' : g.isTerminal (getN e.tree i).data = false := by
      cases h : g.isTerminal (getN e.tree i).data
      · rfl
      · exact absurd h hterm
    by_cases hgate : e.minT ≤ (getN e.tree i).numVisits
    · rw [iterate_expand g rand e i r' hsel hterm' hgate]
      dsimp only
      have hnid := expandNext_nid g e.tree i e.currentNodeID
      have hlen2 := expandNext_length g e.tree i e.currentNodeID
      have hL : (expandNext g e.tree i e.currentNodeID).2.1 <
          List.length (expandNext g e.tree i e.currentNodeID).1 := by
        rw [hnid.1, hlen2]; omega
      intro j hj hpar
      rw [backProp_length] at hj
      rw [backProp_parent g _ hL j] at hpar
      rw [backProp_numVisits g _ hL j]
      by_cases hjL : j = (expandNext g e.tree i e.currentNodeID).2.1
      · subst hjL
        rw [if_pos (self_mem_path _ _)]
        omega
      · have hjlt : j < List.length e.tree := by
          rw [hlen2] at hj
          rw [hnid.1] at hjL
          omega
        rw [expandNext_parent_pres g e.currentNodeID hi j hjlt] at hpar
        rw [expandNext_visits_pres g e.currentNodeID hi j hjlt]
        have := hv j hjlt hpar
        omega
    · rw [iterate_defer g rand e i r' hsel hterm' (not_le.1 hgate)]
      exact VisitedInv_backProp g _ hi hv

end IteratePreservation

section PathCounting

variable [Inhabited S] [Inhabited Act]

theorem path_parent_mem (t : Tree S Act) :
    ∀ i c q, c ∈ path t i → (getN t c).parent = some q → q < c → q ∈ path t i := by
  intro i
  induction i using Nat.strong_induction_on with
  | _ i ih =>
    intro c q hc hq hqc
    cases hpar : (getN t i).parent with
    | none =>
      rw [path_singleton_of_root hpar] at hc ⊢
      simp at hc
      subst hc
      rw [hpar] at hq
      cases hq
    | some p =>
      by_cases hp : p < i
      · rw [path_cons_of_parent hpar hp] at hc ⊢
        rcases List.mem_cons.1 hc with rfl | hc'
        · have hpq : p = q := by
            rw [hpar] at hq
            exact Option.some_inj.1 hq
          subst hpq
          exact List.mem_cons_of_mem _ (self_mem_path t p)
        · exact List.mem_cons_of_mem _ (ih p hp c q hc' hq hqc)
      · rw [path_singleton_of_stuck hpar hp] at hc ⊢
        simp at hc
        subst hc
        have hpq : p = q := by
          rw [hpar] at hq
          exact Option.some_inj.1 hq
        omega

theorem path_parent_unique (t : Tree S Act) :
    ∀ i c1 c2 q, c1 ∈ path t i → c2 ∈ path t i →
      (getN t c1).parent = some q → (getN t c2).parent = some q →
      q < c1 → q < c2 → c1 = c2 := by
  intro i
  induction i using Nat.strong_induction_on with
  | _ i ih =>
    intro c1 c2 q h1 h2 hq1 hq2 hqc1 hqc2
    cases hpar : (getN t i).parent with
    | none =>
      rw [path_singleton_of_root hpar] at h1 h2
      simp at h1 h2
      omega
    | some p =>
      by_cases hp : p < i
      · rw [path_cons_of_parent hpar hp] at h1 h2
        rcases List.mem_cons.1 h1 with rfl | h1'
        · rcases List.mem_cons.1 h2 with rfl | h2'
          · rfl
          · have hpq : p = q := by
              rw [hpar] at hq1
              exact Option.some_inj.1 hq1
            have := mem_path_le t p c2 h2'
            omega
        · rcases List.mem_cons.1 h2 with rfl | h2'
          · have hpq : p = q := by
              rw [hpar] at hq2
              exact Option.some_inj.1 hq2
            have := mem_path_le t p c1 h1'
            omega
          · exact ih p hp c1 c2 q h1' h2' hq1 hq2 hqc1 hqc2
      · rw [path_singleton_of_stuck hpar hp] at h1 h2
        simp at h1 h2
        omega

theorem countP_le_one_of_unique {P : ℕ → Prop} [DecidablePred P] :
    ∀ l : List ℕ, l.Nodup → (∀ a ∈ l, ∀ b ∈ l, P a → P b → a = b) →
      l.countP (fun x => decide (P x)) ≤ 1 := by
  intro l
  induction l with
  | nil => intro _ _; simp
  | cons a rest ih =>
    intro hnd h
    rw [List.countP_cons]
    have hndr := (List.nodup_cons.1 hnd).2
    have hna := (List.nodup_cons.1 hnd).1
    by_cases hPa : P a
    · have hzero : rest.countP (fun x => decide (P x)) = 0 := by
        rw [List.countP_eq_zero]
        intro b hb
        simp only [decide_eq_true_eq]
        intro hPb
        have hba : b = a :=
          h b (List.mem_cons_of_mem _ hb) a (List.mem_cons_self _ _) hPb hPa
        rw [hba] at hb
        exact hna hb
      rw [hzero]
      simp [hPa]
    · simp only [decide_eq_true_eq, hPa]
      have := ih hndr (fun x hx y hy hPx hPy =>
        h x (List.mem_cons_of_mem _ hx) y (List.mem_cons_of_mem _ hy) hPx hPy)
      simpa using this

theorem sum_map_add_indicator (f : ℕ → ℕ) (P : ℕ → Prop) [DecidablePred P] :
    ∀ l : List ℕ,
      (l.map (fun c => f c + if P c then 1 else 0)).sum =
        (l.map f).sum + l.countP (fun x => decide (P x)) := by
  intro l
  induction l with
  | nil => simp
  | cons a rest ih =>
    rw [List.map_cons, List.sum_cons, List.map_cons, List.sum_cons, List.countP_cons, ih]
    by_cases hPa : P a
    · simp [hPa]; omega
    · simp [hPa]; omega

end PathCounting

section SumPreservation

variable [Inhabited S] [Inhabited Act]

theorem SumInv_backProp (g : Game S Act) (sc : ℚ) {t : Tree S Act} {i : ℕ}
    (hi : i < List.length t) (hst : ST t) (hs : SumInv t) :
    SumInv (backProp g sc t i) := by
  intro j hj
  rw [backProp_length] at hj
  unfold sumChildVisits
  rw [backProp_children g sc hi j]
  have hmap : (((getN t j).childrenIdx).map (fun c => (getN (backProp g sc t i) c).numVisits)) =
      ((getN t j).childrenIdx).map
        (fun c => (getN t c).numVisits + if c ∈ path t i then 1 else 0) := by
    apply List.map_congr_left
    intro c _
    exact backProp_numVisits g sc hi c
  rw [hmap, sum_map_add_indicator, backProp_numVisits g sc hi j]
  have hbase : (((getN t j).childrenIdx).map (fun c => (getN t c).numVisits)).sum ≤
      (getN t j).numVisits := hs j hj
  by_cases hcz : ((getN t j).childrenIdx).countP (fun x => decide (x ∈ path t i)) = 0
  · rw [hcz]
    by_cases hjp : j ∈ path t i <;> simp [hjp] <;> omega
  · have hpos : 0 < ((getN t j).childrenIdx).countP (fun x => decide (x ∈ path t i)) :=
      Nat.pos_of_ne_zero hcz
    obtain ⟨c, hcmem, hcP⟩ := List.countP_pos_iff.1 hpos
    simp only [decide_eq_true_eq] at hcP
    have hcpar := hst.children_parent j hj c hcmem
    have hclt := hst.children_lt j hj c hcmem
    have hjmem : j ∈ path t i := path_parent_mem t i c j hcP hcpar hclt.2
    have hcount : ((getN t j).childrenIdx).countP (fun x => decide (x ∈ path t i)) ≤ 1 := by
      apply countP_le_one_of_unique _ (hst.children_nodup j hj)
      intro a ha b hb hPa hPb
      exact path_parent_unique t i a b j hPa hPb
        (hst.children_parent j hj a ha) (hst.children_parent j hj b hb)
        (hst.children_lt j hj a ha).2 (hst.children_lt j hj b hb).2
    rw [if_pos hjmem]
    omega

theorem SumInv_expandNext (g : Game S Act) {t : Tree S Act} {i : ℕ} (nid : ℕ)
    (hi : i < List.length t) (hst : ST t) (hs : SumInv t) :
    SumInv (expandNext g t i nid).1 := by
  intro j hj
  rw [expandNext_length] at hj
  by_cases hjL : j = List.length t
  · subst hjL
    unfold sumChildVisits
    rw [getN_expandNext_new]
    simp [mkNode]
  · have hjlt : j < List.length t := by omega
    by_cases hji : j = i
    · subst hji
      unfold sumChildVisits
      rw [getN_expandNext_self g t j nid hjlt]
      dsimp only
      rw [List.map_append, List.sum_append]
      have hmap : (((getN t j).childrenIdx).map
          (fun c => (getN (expandNext g t j nid).1 c).numVisits)) =
          ((getN t j).childrenIdx).map (fun c => (getN t c).numVisits) := by
        apply List.map_congr_left
        intro c hc
        exact expandNext_visits_pres g nid hjlt c (hst.children_lt j hjlt c hc).1
      rw [hmap]
      rw [List.map_singleton, List.sum_singleton, getN_expandNext_new]
      have hbase : (((getN t j).childrenIdx).map (fun c => (getN t c).numVisits)).sum ≤
          (getN t j).numVisits := hs j hjlt
      simp [mkNode]
      omega
    · unfold sumChildVisits
      rw [getN_expandNext_other g t i nid j hjlt hji]
      have hmap : (((getN t j).childrenIdx).map
          (fun c => (getN (expandNext g t i nid).1 c).numVisits)) =
          ((getN t j).childrenIdx).map (fun c => (getN t c).numVisits) := by
        apply List.map_congr_left
        intro c hc
        exact expandNext_visits_pres g nid hi c (hst.children_lt j hjlt c hc).1
      rw [hmap]
      have hbase : (((getN t j).childrenIdx).map (fun c => (getN t c).numVisits)).sum ≤
          (getN t j).numVisits := hs j hjlt
      exact hbase

theorem SumInv_iterate (g : Game S Act) (rand : ℕ → ℕ) (e : Engine S Act)
    (hst : ST e.tree) (hs : SumInv e.tree) : SumInv (iterate g rand e).tree := by
  rcases hsel : descend g rand e.minVisits e.uctC e.tree (List.length e.tree) 0 e.rngPos
    with ⟨i, r'⟩
  have hi : i < List.length e.tree := by
    have h := descend_fst_lt g rand e.minVisits e.uctC hst (List.length e.tree) 0 e.rngPos
      hst.nonempty
    rw [hsel] at h
    exact h
  by_cases hterm : g.isTerminal (getN e.tree i).data = true
  · rw [iterate_terminal g rand e i r' hsel hterm]
    exact SumInv_backProp g _ hi hst hs
  · have hterm' : g.isTerminal (getN e.tree i).data = false := by
      cases h : g.isTerminal (getN e.tree i).data
      · rfl
      · exact absurd h hterm
    by_cases hgate : e.minT ≤ (getN e.tree i).numVisits
    · rw [iterate_expand g rand e i r' hsel hterm' hgate]
      dsimp only
      have hnid := expandNext_nid g e.tree i e.currentNodeID
      refine SumInv_backProp g _ ?_ (ST_expandNext g e.currentNodeID hi hst)
        (SumInv_expandNext g e.currentNodeID hi hst hs)
      rw [hnid.1, expandNext_length]
      omega
    · rw [iterate_defer g rand e i r' hsel hterm' (not_le.1 hgate)]
      exact SumInv_backProp g _ hi hst hs

end SumPreservation

section RootBase

variable [Inhabited S] [Inhabited Act]

theorem ST_root (g : Game S Act) (s : S) : ST ([mkNode g 0 s none g.dflt] : Tree S Act) := by
  constructor
  · simp
  · intro j hj p hp
    simp at hj
    subst hj
    simp [getN, mkNode] at hp
  · intro j hj c hc
    simp at hj
    subst hj
    simp [getN, mkNode] at hc
  · intro j hj
    simp at hj
    subst hj
    simp [getN, mkNode]
  · intro j hj c hc
    simp at hj
    subst hj
    simp [getN, mkNode] at hc

theorem VisitedInv_root (g : Game S Act) (s : S) :
    VisitedInv ([mkNode g 0 s none g.dflt] : Tree S Act) := by
  intro j hj hpar
  simp at hj
  subst hj
  simp [getN, mkNode] at hpar

theorem SumInv_root (g : Game S Act) (s : S) :
    SumInv ([mkNode g 0 s none g.dflt] : Tree S Act) := by
  intro j hj
  simp at hj
  subst hj
  simp [sumChildVisits, getN, mkNode]

end RootBase

section ClaimC9

variable [Inhabited S] [Inhabited Act]

/-- C9: starting from the constructor's one-node tree, after every
number of completed iterations every non-root node has been visited at
least once; hence every recorded child has `visits ≥ 1`, so the UCT
term `log(parent.visits)/child.visits` never divides by zero, and
`select` on any node with children returns one of that node's
children (in the UCT regime under the float-sentinel range condition
the C++ best-so-far loop needs). -/
theorem C9_children_visited (g : Game S Act) (rand : ℕ → ℕ) (s : S) (e0 : Engine S Act)
    (h0 : e0.tree = [mkNode g 0 s none g.dflt]) :
    ∀ n,
      VisitedInv ((fun e => iterate g rand e)^[n] e0).tree ∧
      (∀ j, j < List.length ((fun e => iterate g rand e)^[n] e0).tree →
        ∀ c ∈ (getN ((fun e => iterate g rand e)^[n] e0).tree j).childrenIdx,
          1 ≤ (getN ((fun e => iterate g rand e)^[n] e0).tree c).numVisits) ∧
      (∀ (mv : ℕ) (cq : ℚ) (j r : ℕ),
        (getN ((fun e => iterate g rand e)^[n] e0).tree j).childrenIdx ≠ [] →
        (mv ≤ (getN ((fun e => iterate g rand e)^[n] e0).tree j).numVisits →
          ∃ c ∈ (getN ((fun e => iterate g rand e)^[n] e0).tree j).childrenIdx,
            -floatMaxQ < uctScore g cq (getN ((fun e => iterate g rand e)^[n] e0).tree j).numVisits
              (getN ((fun e => iterate g rand e)^[n] e0).tree c)) →
        ∃ c ∈ (getN ((fun e => iterate g rand e)^[n] e0).tree j).childrenIdx,
          (selectIdx g rand mv cq ((fun e => iterate g rand e)^[n] e0).tree j r).1 = some c) := by
  have hinv : ∀ n, ST ((fun e => iterate g rand e)^[n] e0).tree ∧
      VisitedInv ((fun e => iterate g rand e)^[n] e0).tree := by
    intro n
    induction n with
    | zero =>
      rw [Function.iterate_zero_apply, h0]
      exact ⟨ST_root g s, VisitedInv_root g s⟩
    | succ n ih =>
      rw [Function.iterate_succ_apply']
      exact ⟨ST_iterate g rand _ ih.1, VisitedInv_iterate g rand _ ih.1 ih.2⟩
  intro n
  refine ⟨(hinv n).2, ?_, ?_⟩
  · intro j hj c hc
    have hst := (hinv n).1
    have hpar := hst.children_parent j hj c hc
    have hclt := (hst.children_lt j hj c hc).1
    exact (hinv n).2 c hclt (by rw [hpar]; exact Option.noConfusion)
  · intro mv cq j r hne hrange
    exact selectIdx_total g rand mv cq _ j r hne hrange

/-- Witness for C9 on the demo run after three iterations: node 1 is
a visited non-root node, and `select` at the root returns one of its
children. -/
theorem C9_children_visited_witness :
    1 ≤ (getN ((fun e => iterate demoGame demoRand e)^[3] demoEngine3).tree 1).numVisits ∧
    ∃ c ∈ (getN ((fun e => iterate demoGame demoRand e)^[3] demoEngine3).tree 0).childrenIdx,
      (selectIdx demoGame demoRand 5 (1 / 2)
        ((fun e => iterate demoGame demoRand e)^[3] demoEngine3).tree 0 0).1 = some c :=
  ⟨(C9_children_visited demoGame demoRand 0 demoEngine3 rfl 3).1 1 (by decide) (by decide),
   (C9_children_visited demoGame demoRand 0 demoEngine3 rfl 3).2.2 5 (1 / 2) 0 0
     (by decide) (by decide)⟩

end ClaimC9

section ClaimC10

variable [Inhabited S] [Inhabited Act]

/-- C10: starting from the constructor's one-node tree, at every point
between iterations every node has at least as many visits as its
children combined — every backpropagation that updates a child also
updates the parent on the same walk to the root, and a node can be a
playout origin without producing a child. -/
theorem C10_visits_dominate_children (g : Game S Act) (rand : ℕ → ℕ) (s : S)
    (e0 : Engine S Act) (h0 : e0.tree = [mkNode g 0 s none g.dflt]) :
    ∀ n j, j < List.length ((fun e => iterate g rand e)^[n] e0).tree →
      sumChildVisits ((fun e => iterate g rand e)^[n] e0).tree j ≤
        (getN ((fun e => iterate g rand e)^[n] e0).tree j).numVisits := by
  have hinv : ∀ n, ST ((fun e => iterate g rand e)^[n] e0).tree ∧
      SumInv ((fun e => iterate g rand e)^[n] e0).tree := by
    intro n
    induction n with
    | zero =>
      rw [Function.iterate_zero_apply, h0]
      exact ⟨ST_root g s, SumInv_root g s⟩
    | succ n ih =>
      rw [Function.iterate_succ_apply']
      exact ⟨ST_iterate g rand _ ih.1, SumInv_iterate g rand _ ih.1 ih.2⟩
  intro n
  exact (hinv n).2

/-- Witness for C10 on the demo run after three iterations: the root
(3 visits) dominates the combined visits of its two children. -/
theorem C10_visits_dominate_children_witness :
    sumChildVisits ((fun e => iterate demoGame demoRand e)^[3] demoEngine3).tree 0 ≤
      (getN ((fun e => iterate demoGame demoRand e)^[3] demoEngine3).tree 0).numVisits :=
  C10_visits_dominate_children demoGame demoRand 0 demoEngine3 rfl 3 0 (by decide)

end ClaimC10

end MctsSpec
